import Mathlib

/-!
Verification development for the pg_stage dump anonymizer.

The repository is a streaming anonymizer for PostgreSQL dumps.  This file
gives a shallow embedding of its core data structures and algorithms:
byte-level rows, UTF-8 decoding as performed by the row mutator, the
per-column mutation-spec loop with conditions and relations, the unique and
relation trackers, selected generators, the plain-format line driver, the
custom-format binary integer codec, format sniffing and the block-processor
compression dispatch.  Strings are modelled as lists of Unicode scalar
values (`Str`), byte streams as lists of naturals (`Bytes`).  Sources of
nondeterminism or externally-supplied behaviour (the PRNG, the regex
engine, the fake-data corpus generators, the HMAC-seeded shuffle, the
compression codecs, the JSON parser of directive payloads) are modelled as
explicit function parameters collected in an environment `Env`, matching
the repository which treats them as opaque collaborators.
-/

set_option maxRecDepth 4000

namespace PgStage

/-- A Unicode scalar string, as a list of codepoints (Rust `String`/`str`). -/
abbrev Str := List Nat

/-- A byte stream, as a list of naturals below 256. -/
abbrev Bytes := List Nat

/-- Codepoints of a Lean string literal, for readable concrete values. -/
def str (s : String) : Str := s.data.map (fun c => c.toNat)

/-- Number of occurrences of `d` in a list of naturals. -/
def countD (d : Nat) (l : List Nat) : Nat := (l.filter (fun x => x = d)).length

/-- Split a codepoint list on a separator, as Rust `str::split` does:
the result has one part per separator occurrence plus one. -/
def splitSep (d : Nat) : List Nat → List (List Nat)
  | [] => [[]]
  | c :: rest =>
    match splitSep d rest with
    | [] => [[]]
    | p :: ps => if c = d then [] :: p :: ps else (c :: p) :: ps

/-- Join parts with a single separator element between consecutive parts,
as the row writer does (`output.push(delimiter)` between values). -/
def joinSep (d : Nat) : List (List Nat) → List Nat
  | [] => []
  | [v] => v
  | v :: w :: vs => v ++ d :: joinSep d (w :: vs)

theorem splitSep_ne_nil (d : Nat) (s : List Nat) : splitSep d s ≠ [] := by
  cases s with
  | nil => simp [splitSep]
  | cons c rest =>
    simp only [splitSep]
    rcases h : splitSep d rest with _ | ⟨p, ps⟩
    · simp
    · by_cases hc : c = d <;> simp [hc]

theorem joinSep_splitSep (d : Nat) (s : List Nat) :
    joinSep d (splitSep d s) = s := by
  induction s with
  | nil => simp [splitSep, joinSep]
  | cons c rest ih =>
    simp only [splitSep]
    rcases h : splitSep d rest with _ | ⟨p, ps⟩
    · exact absurd h (splitSep_ne_nil d rest)
    · rw [h] at ih
      by_cases hc : c = d
      · subst hc
        simp only [if_pos rfl, joinSep]
        cases ps <;> simp_all [joinSep]
      · simp only [if_neg hc]
        cases ps <;> simp_all [joinSep]

theorem length_splitSep (d : Nat) (s : List Nat) :
    (splitSep d s).length = countD d s + 1 := by
  induction s with
  | nil => simp [splitSep, countD]
  | cons c rest ih =>
    simp only [splitSep]
    rcases h : splitSep d rest with _ | ⟨p, ps⟩
    · exact absurd h (splitSep_ne_nil d rest)
    · rw [h] at ih
      by_cases hc : c = d
      · subst hc
        simp only [if_pos rfl]
        simp [countD, List.filter] at ih ⊢
        omega
      · simp only [if_neg hc]
        simp [countD, List.filter, hc] at ih ⊢
        omega

theorem not_mem_of_mem_splitSep (d : Nat) (s p : List Nat)
    (hp : p ∈ splitSep d s) : d ∉ p := by
  induction s generalizing p with
  | nil => simp [splitSep] at hp; subst hp; simp
  | cons c rest ih =>
    simp only [splitSep] at hp
    rcases h : splitSep d rest with _ | ⟨q, qs⟩
    · exact absurd h (splitSep_ne_nil d rest)
    · rw [h] at hp
      by_cases hc : c = d
      · subst hc
        simp at hp
        rcases hp with rfl | rfl | hp
        · simp
        · exact ih p (by rw [h]; simp)
        · exact ih p (by rw [h]; simp [hp])
      · simp [hc] at hp
        rcases hp with rfl | hp
        · intro hm
          simp at hm
          rcases hm with hm | hm
          · exact hc hm.symm
          · exact ih q (by rw [h]; simp) hm
        · exact ih p (by rw [h]; simp [hp])

theorem countD_append (d : Nat) (a b : List Nat) :
    countD d (a ++ b) = countD d a + countD d b := by
  simp [countD]

theorem countD_eq_zero_of_not_mem (d : Nat) (l : List Nat) (h : d ∉ l) :
    countD d l = 0 := by
  induction l with
  | nil => simp [countD]
  | cons x xs ih =>
    simp only [List.mem_cons, not_or] at h
    simp [countD, List.filter, Ne.symm h.1]
    simpa [countD] using ih h.2

theorem countD_joinSep (d : Nat) (ps : List (List Nat))
    (hne : ps ≠ []) (hfree : ∀ p ∈ ps, d ∉ p) :
    countD d (joinSep d ps) = ps.length - 1 := by
  induction ps with
  | nil => exact absurd rfl hne
  | cons v vs ih =>
    cases vs with
    | nil =>
      simp [joinSep, countD_eq_zero_of_not_mem d v (hfree v (by simp))]
    | cons w ws =>
      have h1 : countD d (joinSep d (w :: ws)) = (w :: ws).length - 1 :=
        ih (by simp) (fun p hp => hfree p (by simp [hp]))
      simp only [joinSep, countD_append]
      rw [countD_eq_zero_of_not_mem d v (hfree v (by simp))]
      have : countD d (d :: joinSep d (w :: ws)) =
          countD d (joinSep d (w :: ws)) + 1 := by
        simp [countD, List.filter]
      rw [this, h1]
      simp

/-- UTF-8 encoding of one Unicode scalar value, as Rust `String` stores it. -/
def encodeChar (c : Nat) : List Nat :=
  if c < 0x80 then [c]
  else if c < 0x800 then [0xC0 + c / 64, 0x80 + c % 64]
  else if c < 0x10000 then [0xE0 + c / 4096, 0x80 + c / 64 % 64, 0x80 + c % 64]
  else [0xF0 + c / 262144, 0x80 + c / 4096 % 64, 0x80 + c / 64 % 64, 0x80 + c % 64]

/-- UTF-8 encoding of a scalar string (Rust `str::as_bytes`). -/
def encodeUtf8 (s : Str) : Bytes := (s.map encodeChar).flatten

/-- A valid Unicode scalar value: below the surrogate range or between it
and the maximum codepoint.  Rust `char` always satisfies this. -/
def ValidScalar (c : Nat) : Prop := c < 0xD800 ∨ (0xE000 ≤ c ∧ c < 0x110000)

instance (c : Nat) : Decidable (ValidScalar c) := by
  unfold ValidScalar; infer_instance

/-- Decode one UTF-8 scalar from the front of a byte stream, with the full
validation `std::str::from_utf8` performs (continuation ranges, no
overlongs, no surrogates, max codepoint). -/
def decodeOne : Bytes → Option (Nat × Bytes)
  | [] => none
  | b0 :: r0 =>
    if b0 < 0x80 then some (b0, r0)
    else if b0 < 0xC2 then none
    else if b0 < 0xE0 then
      match r0 with
      | b1 :: r1 =>
        if 0x80 ≤ b1 ∧ b1 < 0xC0 then
          some ((b0 - 0xC0) * 64 + (b1 - 0x80), r1)
        else none
      | [] => none
    else if b0 < 0xF0 then
      match r0 with
      | b1 :: b2 :: r2 =>
        if (0x80 ≤ b1 ∧ b1 < 0xC0) ∧ (0x80 ≤ b2 ∧ b2 < 0xC0) ∧
            ¬(b0 = 0xE0 ∧ b1 < 0xA0) ∧ ¬(b0 = 0xED ∧ 0xA0 ≤ b1) then
          some ((b0 - 0xE0) * 4096 + (b1 - 0x80) * 64 + (b2 - 0x80), r2)
        else none
      | _ => none
    else if b0 < 0xF5 then
      match r0 with
      | b1 :: b2 :: b3 :: r3 =>
        if (0x80 ≤ b1 ∧ b1 < 0xC0) ∧ (0x80 ≤ b2 ∧ b2 < 0xC0) ∧
            (0x80 ≤ b3 ∧ b3 < 0xC0) ∧
            ¬(b0 = 0xF0 ∧ b1 < 0x90) ∧ ¬(b0 = 0xF4 ∧ 0x90 ≤ b1) then
          some ((b0 - 0xF0) * 262144 + (b1 - 0x80) * 4096 +
            (b2 - 0x80) * 64 + (b3 - 0x80), r3)
        else none
      | _ => none
    else none

theorem decodeOne_spec (b : Bytes) (c : Nat) (r : Bytes)
    (h : decodeOne b = some (c, r)) :
    encodeChar c ++ r = b ∧ ValidScalar c := by
  match b with
  | [] => simp [decodeOne] at h
  | b0 :: r0 =>
    simp only [decodeOne] at h
    by_cases h1 : b0 < 0x80
    · rw [if_pos h1] at h
      simp at h
      obtain ⟨rfl, rfl⟩ := h
      constructor
      · unfold encodeChar
        rw [if_pos h1]
        simp
      · exact Or.inl (by omega)
    · rw [if_neg h1] at h
      by_cases h2 : b0 < 0xC2
      · rw [if_pos h2] at h; simp at h
      · rw [if_neg h2] at h
        by_cases h3 : b0 < 0xE0
        · rw [if_pos h3] at h
          match r0 with
          | [] => simp at h
          | b1 :: r1 =>
            simp at h
            obtain ⟨⟨hb1a, hb1b⟩, hc, rfl⟩ := h
            subst hc
            refine ⟨?_, Or.inl (by omega)⟩
            unfold encodeChar
            rw [if_neg (by omega), if_pos (by omega)]
            simp only [List.cons_append, List.nil_append, List.cons.injEq]
            refine ⟨by omega, by omega, trivial⟩
        · rw [if_neg h3] at h
          by_cases h5 : b0 < 0xF0
          · rw [if_pos h5] at h
            match r0 with
            | [] => simp at h
            | [b1] => simp at h
            | b1 :: b2 :: r2 =>
              simp at h
              obtain ⟨⟨⟨hb1a, hb1b⟩, ⟨hb2a, hb2b⟩, hov, hsur⟩, hc, rfl⟩ := h
              subst hc
              refine ⟨?_, ?_⟩
              · unfold encodeChar
                rw [if_neg (by omega), if_neg (by omega), if_pos (by omega)]
                simp only [List.cons_append, List.nil_append, List.cons.injEq]
                refine ⟨by omega, by omega, by omega, trivial⟩
              · unfold ValidScalar
                omega
          · rw [if_neg h5] at h
            by_cases h7 : b0 < 0xF5
            · rw [if_pos h7] at h
              match r0 with
              | [] => simp at h
              | [b1] => simp at h
              | [b1, b2] => simp at h
              | b1 :: b2 :: b3 :: r3 =>
                simp at h
                obtain ⟨⟨⟨hb1a, hb1b⟩, ⟨hb2a, hb2b⟩, ⟨hb3a, hb3b⟩, hov, hmax⟩, hc, rfl⟩ := h
                subst hc
                refine ⟨?_, ?_⟩
                · unfold encodeChar
                  rw [if_neg (by omega), if_neg (by omega), if_neg (by omega)]
                  simp only [List.cons_append, List.nil_append, List.cons.injEq]
                  refine ⟨by omega, by omega, by omega, by omega, trivial⟩
                · unfold ValidScalar
                  omega
            · rw [if_neg h7] at h; simp at h

theorem encodeChar_ne_nil (c : Nat) : encodeChar c ≠ [] := by
  unfold encodeChar
  split
  · simp
  · split
    · simp
    · split <;> simp

theorem decodeOne_rest_lt (b : Bytes) (c : Nat) (r : Bytes)
    (h : decodeOne b = some (c, r)) : r.length < b.length := by
  have hs := (decodeOne_spec b c r h).1
  have hne := encodeChar_ne_nil c
  rw [← hs]
  rcases hec : encodeChar c with _ | ⟨x, xs⟩
  · exact absurd hec hne
  · simp
    omega

/-- Scalar-by-scalar decoding loop, structurally recursive on a fuel list
(one unit per decoded scalar; since `decodeOne` consumes at least one byte,
fuel as long as the input never runs out). -/
def decodeUtf8Go : List Nat → Bytes → Option Str
  | _, [] => some []
  | [], _ :: _ => none
  | _ :: fuel, b0 :: r0 =>
    match decodeOne (b0 :: r0) with
    | none => none
    | some (c, r) => (decodeUtf8Go fuel r).map (fun s => c :: s)

/-- Full UTF-8 decoding of a byte stream (`std::str::from_utf8`):
`none` exactly when the bytes are not valid UTF-8. -/
def decodeUtf8 (b : Bytes) : Option Str := decodeUtf8Go b b

theorem decodeUtf8Go_fuel_aux (n : Nat) :
    ∀ (b : Bytes), b.length ≤ n →
    ∀ (f1 f2 : List Nat), b.length ≤ f1.length → b.length ≤ f2.length →
    decodeUtf8Go f1 b = decodeUtf8Go f2 b := by
  induction n with
  | zero =>
    intro b hb f1 f2 _ _
    match b with
    | [] =>
      match f1, f2 with
      | [], [] => rfl
      | [], _ :: _ => rfl
      | _ :: _, [] => rfl
      | _ :: _, _ :: _ => rfl
    | _ :: _ => simp at hb
  | succ n ih =>
    intro b hb f1 f2 h1 h2
    match b with
    | [] =>
      match f1, f2 with
      | [], [] => rfl
      | [], _ :: _ => rfl
      | _ :: _, [] => rfl
      | _ :: _, _ :: _ => rfl
    | b0 :: r0 =>
      match f1, f2 with
      | [], _ => simp at h1
      | _ :: _, [] => simp at h2
      | x :: f1, y :: f2 =>
        simp only [decodeUtf8Go]
        rcases hd : decodeOne (b0 :: r0) with _ | ⟨c, r⟩
        · rfl
        · have hlt := decodeOne_rest_lt _ _ _ hd
          simp only [List.length_cons] at h1 h2 hb hlt
          exact congrArg (Option.map fun s => c :: s)
            (ih r (by omega) f1 f2 (by omega) (by omega))

theorem decodeUtf8Go_fuel (b : Bytes) (f1 f2 : List Nat)
    (h1 : b.length ≤ f1.length) (h2 : b.length ≤ f2.length) :
    decodeUtf8Go f1 b = decodeUtf8Go f2 b :=
  decodeUtf8Go_fuel_aux b.length b (Nat.le_refl _) f1 f2 h1 h2

theorem encodeUtf8_nil : encodeUtf8 [] = [] := rfl

theorem encodeUtf8_cons (c : Nat) (s : Str) :
    encodeUtf8 (c :: s) = encodeChar c ++ encodeUtf8 s := by
  simp [encodeUtf8]

theorem encodeUtf8_append (a b : Str) :
    encodeUtf8 (a ++ b) = encodeUtf8 a ++ encodeUtf8 b := by
  simp [encodeUtf8]

theorem decodeUtf8_cons_eq (b : Bytes) (c : Nat) (r : Bytes)
    (h : decodeOne b = some (c, r)) :
    decodeUtf8 b = (decodeUtf8 r).map (fun s => c :: s) := by
  match b with
  | [] => simp [decodeOne] at h
  | b0 :: r0 =>
    have hlt := decodeOne_rest_lt _ _ _ h
    unfold decodeUtf8
    show decodeUtf8Go (b0 :: r0) (b0 :: r0) = (decodeUtf8Go r r).map (fun s => c :: s)
    rw [show decodeUtf8Go (b0 :: r0) (b0 :: r0) =
      match decodeOne (b0 :: r0) with
      | none => none
      | some (c, r) => (decodeUtf8Go r0 r).map (fun s => c :: s) from rfl]
    rw [h]
    exact congrArg (Option.map fun s => c :: s)
      (decodeUtf8Go_fuel r r0 r (by simp at hlt; omega) (Nat.le_refl _))

theorem decodeUtf8_cons_none (b0 : Nat) (r0 : Bytes)
    (h : decodeOne (b0 :: r0) = none) : decodeUtf8 (b0 :: r0) = none := by
  unfold decodeUtf8
  show decodeUtf8Go (b0 :: r0) (b0 :: r0) = none
  rw [show decodeUtf8Go (b0 :: r0) (b0 :: r0) =
    match decodeOne (b0 :: r0) with
    | none => none
    | some (c, r) => (decodeUtf8Go r0 r).map (fun s => c :: s) from rfl]
  rw [h]

theorem decodeUtf8_encode_aux (n : Nat) :
    ∀ (b : Bytes), b.length ≤ n → ∀ s, decodeUtf8 b = some s → encodeUtf8 s = b := by
  induction n with
  | zero =>
    intro b hb s h
    match b with
    | [] =>
      simp [decodeUtf8, decodeUtf8Go] at h
      subst h
      rfl
    | b0 :: r0 => simp at hb
  | succ n ih =>
    intro b hb s h
    match b with
    | [] =>
      simp [decodeUtf8, decodeUtf8Go] at h
      subst h
      rfl
    | b0 :: r0 =>
      rcases hd : decodeOne (b0 :: r0) with _ | ⟨c, r⟩
      · rw [decodeUtf8_cons_none _ _ hd] at h
        simp at h
      · rw [decodeUtf8_cons_eq _ _ _ hd] at h
        simp only [Option.map_eq_some'] at h
        obtain ⟨s2, hs2, rfl⟩ := h
        have hlt : r.length < r0.length + 1 := by
          simpa using decodeOne_rest_lt _ _ _ hd
        have hb2 : r0.length + 1 ≤ n + 1 := by simpa using hb
        have henc := ih r (by omega) s2 hs2
        rw [encodeUtf8_cons, henc]
        exact (decodeOne_spec _ _ _ hd).1

theorem decodeUtf8_encode (b : Bytes) (s : Str) (h : decodeUtf8 b = some s) :
    encodeUtf8 s = b :=
  decodeUtf8_encode_aux b.length b (Nat.le_refl _) s h

theorem decodeOne_encodeChar (c : Nat) (r : Bytes) (hv : ValidScalar c) :
    decodeOne (encodeChar c ++ r) = some (c, r) := by
  unfold ValidScalar at hv
  by_cases h1 : c < 0x80
  · unfold encodeChar
    rw [if_pos h1]
    simp only [List.cons_append, List.nil_append, decodeOne]
    rw [if_pos h1]
  · by_cases h2 : c < 0x800
    · unfold encodeChar
      rw [if_neg h1, if_pos h2]
      simp only [List.cons_append, List.nil_append, decodeOne]
      rw [if_neg (by omega), if_neg (by omega), if_pos (by omega),
        if_pos (by constructor <;> omega)]
      simp
      omega
    · by_cases h3 : c < 0x10000
      · unfold encodeChar
        rw [if_neg h1, if_neg h2, if_pos h3]
        simp only [List.cons_append, List.nil_append, decodeOne]
        rw [if_neg (by omega), if_neg (by omega), if_neg (by omega),
          if_pos (by omega)]
        rw [if_pos ?side]
        case side =>
          refine ⟨⟨by omega, by omega⟩, ⟨by omega, by omega⟩, by omega, by omega⟩
        simp
        omega
      · unfold encodeChar
        rw [if_neg h1, if_neg h2, if_neg h3]
        simp only [List.cons_append, List.nil_append, decodeOne]
        rw [if_neg (by omega), if_neg (by omega), if_neg (by omega),
          if_neg (by omega), if_pos (by omega)]
        rw [if_pos ?side2]
        case side2 =>
          refine ⟨⟨by omega, by omega⟩, ⟨by omega, by omega⟩, ⟨by omega, by omega⟩,
            by omega, by omega⟩
        simp
        omega

theorem encodeUtf8_decode (s : Str) (hv : ∀ c ∈ s, ValidScalar c) :
    decodeUtf8 (encodeUtf8 s) = some s := by
  induction s with
  | nil => simp [encodeUtf8, decodeUtf8, decodeUtf8Go]
  | cons c s ih =>
    rw [encodeUtf8_cons]
    have hd : decodeOne (encodeChar c ++ encodeUtf8 s) = some (c, encodeUtf8 s) :=
      decodeOne_encodeChar c _ (hv c (by simp))
    rw [decodeUtf8_cons_eq _ _ _ hd]
    rw [ih (fun d hdm => hv d (by simp [hdm]))]
    rfl

theorem countD_cons (d a : Nat) (l : List Nat) :
    countD d (a :: l) = (if a = d then 1 else 0) + countD d l := by
  by_cases h : a = d
  · simp [countD, List.filter, h]
    omega
  · simp [countD, List.filter, h]

theorem countD_encodeChar (d c : Nat) (hd : d < 0x80) :
    countD d (encodeChar c) = if c = d then 1 else 0 := by
  unfold encodeChar
  by_cases h1 : c < 0x80
  · rw [if_pos h1]
    by_cases h : c = d <;> simp [countD, List.filter, h]
  · rw [if_neg h1]
    have hne : ¬(c = d) := by omega
    rw [if_neg hne]
    by_cases h2 : c < 0x800
    · rw [if_pos h2]
      simp [countD_cons, countD, show ¬(192 + c / 64 = d) by omega,
        show ¬(128 + c % 64 = d) by omega]
    · by_cases h3 : c < 0x10000
      · rw [if_neg h2, if_pos h3]
        simp [countD_cons, countD, show ¬(224 + c / 4096 = d) by omega,
          show ¬(128 + c / 64 % 64 = d) by omega,
          show ¬(128 + c % 64 = d) by omega]
      · rw [if_neg h2, if_neg h3]
        simp [countD_cons, countD, show ¬(240 + c / 262144 = d) by omega,
          show ¬(128 + c / 4096 % 64 = d) by omega,
          show ¬(128 + c / 64 % 64 = d) by omega,
          show ¬(128 + c % 64 = d) by omega]

theorem countD_encodeUtf8 (d : Nat) (s : Str) (hd : d < 0x80) :
    countD d (encodeUtf8 s) = countD d s := by
  induction s with
  | nil => simp [encodeUtf8, countD]
  | cons c s ih =>
    rw [encodeUtf8_cons, countD_append, ih, countD_cons, countD_encodeChar d c hd]

theorem countD_pos_of_mem (d : Nat) (l : List Nat) (h : d ∈ l) : 0 < countD d l := by
  induction l with
  | nil => simp at h
  | cons x xs ih =>
    rw [countD_cons]
    rcases List.mem_cons.mp h with rfl | h2
    · simp
    · have := ih h2
      omega

theorem not_mem_of_countD_eq_zero (d : Nat) (l : List Nat) (h : countD d l = 0) :
    d ∉ l := fun hm => by have := countD_pos_of_mem d l hm; omega

theorem not_mem_encodeUtf8 (d : Nat) (p : Str) (hd : d < 0x80) (h : d ∉ p) :
    d ∉ encodeUtf8 p := by
  apply not_mem_of_countD_eq_zero
  rw [countD_encodeUtf8 d p hd]
  exact countD_eq_zero_of_not_mem d p h

theorem joinSep_map_encode (d : Nat) (ps : List Str) (hd : d < 0x80) :
    joinSep d (ps.map encodeUtf8) = encodeUtf8 (joinSep d ps) := by
  induction ps with
  | nil => simp [joinSep, encodeUtf8]
  | cons v vs ih =>
    cases vs with
    | nil => simp [joinSep]
    | cons w ws =>
      have step1 : joinSep d (List.map encodeUtf8 (v :: w :: ws)) =
          encodeUtf8 v ++ d :: joinSep d (List.map encodeUtf8 (w :: ws)) := by
        simp [joinSep]
      have step2 : joinSep d (v :: w :: ws) = v ++ d :: joinSep d (w :: ws) := rfl
      rw [step1, ih, step2, encodeUtf8_append, encodeUtf8_cons]
      have hdd : encodeChar d = [d] := by unfold encodeChar; rw [if_pos hd]
      rw [hdd]
      rfl

/-- JSON values as they appear in directive payloads (`serde_json::Value`,
with numbers restricted to integers, which is all the directives use). -/
inductive Json where
  | null : Json
  | bool : Bool → Json
  | num : Int → Json
  | str : Str → Json
  | arr : List Json → Json

/-- Decimal digits of a natural, most significant first. -/
def natDigitsAux : Nat → List Nat → List Nat
  | n, acc => if n < 10 then n :: acc else natDigitsAux (n / 10) (n % 10 :: acc)
  termination_by n => n
  decreasing_by omega

/-- Decimal rendering of a natural as codepoints. -/
def natToStr (n : Nat) : Str := (natDigitsAux n []).map (fun d => 48 + d)

/-- Decimal rendering of an integer as codepoints (minus sign when negative). -/
def intToStr (i : Int) : Str :=
  if i < 0 then 45 :: natToStr (-i).toNat else natToStr i.toNat

/-- Lowercase hexadecimal digit codepoint. -/
def hexDigit (n : Nat) : Nat := if n < 10 then 48 + n else 87 + n

/-- JSON string escaping of one character, as `serde_json` emits it. -/
def escapeChar (c : Nat) : Str :=
  if c = 34 then [92, 34]
  else if c = 92 then [92, 92]
  else if c = 8 then [92, 98]
  else if c = 9 then [92, 116]
  else if c = 10 then [92, 110]
  else if c = 12 then [92, 102]
  else if c = 13 then [92, 114]
  else if c < 32 then [92, 117, 48, 48, hexDigit (c / 16), hexDigit (c % 16)]
  else [c]

/-- Compact JSON rendering (`serde_json::Value::to_string`), used by
`fixed_value`/`random_choice` for non-string, non-null payload values. -/
def jsonRender : Json → Str
  | .null => str ("null")
  | .bool true => str ("true")
  | .bool false => str ("false")
  | .num i => intToStr i
  | .str s => 34 :: (s.map escapeChar).flatten ++ [34]
  | .arr xs => 91 :: joinSep 44 (xs.attach.map (fun x => jsonRender x.1)) ++ [93]
  termination_by j => sizeOf j
  decreasing_by
    simp_wf
    have := List.sizeOf_lt_of_mem x.2
    omega

/-- The error kinds of `PgStageError`. -/
inductive Err where
  | ioErr : Str → Err
  | jsonErr : Str → Err
  | invalidFormat : Str → Err
  | unsupportedVersion : Str → Err
  | unknownMutation : Str → Err
  | mutationError : Str → Err
  | uniqueExhausted : Nat → Err
  | missingParameter : Str → Str → Err
  | invalidParameter : Str → Err
  | compressionError : Str → Err
  | utf8Error : Str → Err
deriving DecidableEq

/-- A directive condition (`types::Condition`). -/
structure Condition where
  column_name : Str
  operation : Str
  value : Str
deriving DecidableEq

/-- A foreign-key relation attached to a spec (`types::Relation`). -/
structure Relation where
  table_name : Str
  column_name : Str
  from_column_name : Str
  to_column_name : Str
deriving DecidableEq

/-- A column mutation directive (`types::MutationSpec`). -/
structure MutationSpec where
  mutation_name : Str
  mutation_kwargs : List (Str × Json)
  conditions : List Condition
  relations : List Relation

/-- A table-level directive (`types::TableMutationSpec`). -/
structure TableMutationSpec where
  mutation_name : Str
deriving DecidableEq

/-- Locale selector. -/
inductive Locale where
  | en : Locale
  | ru : Locale
deriving DecidableEq

/-- First-match lookup in an association list; `HashMap::get` on a map
whose inserts are modelled by consing (later inserts shadow earlier). -/
def lookupA {α : Type} : List (Str × α) → Str → Option α
  | [], _ => none
  | (k, v) :: rest, key => if k = key then some v else lookupA rest key

/-- Insert (overwrite) into an association-list map. -/
def insertA {α : Type} (m : List (Str × α)) (k : Str) (v : α) : List (Str × α) :=
  (k, v) :: m

/-- State of the PRNG and unique tracker shared by generators.
The thread PRNG is abstracted as a position into a fixed draw stream. -/
structure GenState where
  rngPos : Nat
  unique : List Str
deriving DecidableEq

/-- The relation tracker (`relations::RelationTracker`): nested maps
modelled as functions, with `Uuid::new_v4` fresh keys modelled by a
counter of never-reused naturals. -/
structure RelationTracker where
  fkMap : Str → Str → Str → Option Nat
  values : Nat → Option Str
  nextKey : Nat

/-- `RelationTracker::lookup`. -/
def rtLookup (rt : RelationTracker) (t c v : Str) : Option Str :=
  (rt.fkMap t c v).bind rt.values

/-- `RelationTracker::store`. -/
def rtStore (rt : RelationTracker) (t c v newVal : Str) : RelationTracker where
  fkMap := fun t2 c2 v2 =>
    if t2 = t ∧ c2 = c ∧ v2 = v then some rt.nextKey else rt.fkMap t2 c2 v2
  values := fun k => if k = rt.nextKey then some newVal else rt.values k
  nextKey := rt.nextKey + 1

/-- The empty relation tracker. -/
def rtEmpty : RelationTracker where
  fkMap := fun _ _ _ => none
  values := fun _ => none
  nextKey := 0

/-- Key-freshness invariant of the tracker: every key reachable from the
fk map is below the next fresh key.  Holds initially and is preserved by
`rtStore`; it reflects that v4 UUIDs are never reused. -/
def GoodRT (rt : RelationTracker) : Prop :=
  ∀ t c v k, rt.fkMap t c v = some k → k < rt.nextKey

/-- Mutable processor state shared across all rows of the dump: generator
state (PRNG position and unique tracker) and the relation tracker. -/
structure ProcState where
  gen : GenState
  rel : RelationTracker

/-- Per-table state built by `setup_table` and read by `process_line`. -/
structure TableCfg where
  currentTable : Str
  columns : List Str
  mutations : List (Str × List MutationSpec)
  sortedCols : List Str
  isDelete : Bool

/-- The `MutationContext` a generator receives. -/
structure Ctx where
  kwargs : List (Str × Json)
  currentValue : Str
  locale : Locale
  secrets : List (Str × Str)
  obfuscated : List (Str × Str)

/-- Environment of collaborators the embedding abstracts over: the CLI
configuration (delimiter, locale, delete patterns), process-level secrets,
the PRNG draw stream, the regex engine (`rmatch` for `by_pattern`
conditions and pattern matchers for the three directive regexes), the
serde JSON parser of directive payloads, the HMAC-seeded shuffle of
`deterministic_phone_number`, the corpus-backed generators (`ext`), and
the zlib/zstd streaming codecs of the block processor. -/
structure Env where
  delimiter : Nat
  locale : Locale
  secrets : List (Str × Str)
  rng : Nat → Nat
  rmatch : Str → Str → Bool
  shuffle : Str → List Nat → List Nat
  ext : Str → Ctx → GenState → Except Err Str × GenState
  commentColumnRe : Str → Option (Str × Str)
  commentTableRe : Str → Option (Str × Str)
  copyRe : Str → Option (Str × Str)
  parseSpecs : Str → Option (List MutationSpec)
  parseTableSpec : Str → Option TableMutationSpec
  deletePatterns : List (Str → Bool)
  zlibBlock : TableCfg → ProcState → Bytes → Except Err (Bytes × ProcState × Bytes)
  zstdBlock : TableCfg → ProcState → Bytes → Except Err (Bytes × ProcState × Bytes)

/-- `MutationContext::get_str_kwarg`. -/
def getStrKwarg (ctx : Ctx) (k : Str) : Option Str :=
  (lookupA ctx.kwargs k).bind (fun j => match j with
    | Json.str s => some s
    | _ => none)

/-- `MutationContext::get_bool_kwarg` (defaults to false). -/
def getBoolKwarg (ctx : Ctx) (k : Str) : Bool :=
  ((lookupA ctx.kwargs k).bind (fun j => match j with
    | Json.bool b => some b
    | _ => none)).getD false

/-- `serde_json::Value::as_u64`: integers that are non-negative. -/
def jsonAsU64 : Json → Option Nat
  | Json.num i => if 0 ≤ i then some i.toNat else none
  | _ => none

/-- One draw of `rng.gen_range(0..k)`: the PRNG is a fixed stream of
naturals indexed by position, reduced modulo the range. -/
def genRange (env : Env) (g : GenState) (k : Nat) : Nat × GenState :=
  (env.rng g.rngPos % k, { g with rngPos := g.rngPos + 1 })

/-- `UniqueTracker::try_insert`: true and insert when the value is new. -/
def tryInsert (g : GenState) (v : Str) : Bool × GenState :=
  if v ∈ g.unique then (false, g) else (true, { g with unique := v :: g.unique })

/-- `unique::MAX_RETRIES`. -/
def maxRetries : Nat := 1000

/-- `UniqueTracker::generate_unique`: draw until a fresh value appears,
giving up with `UniqueExhausted` after the retry budget. -/
def generateUnique (gen : GenState → Str × GenState) :
    Nat → GenState → Except Err Str × GenState
  | 0, g => (Except.error (Err.uniqueExhausted maxRetries), g)
  | n + 1, g =>
    let (v, g2) := gen g
    match tryInsert g2 v with
    | (true, g3) => (Except.ok v, g3)
    | (false, g3) => generateUnique gen n g3

/-- `simple::null`: the literal postgres NULL sentinel. -/
def nullGen (_env : Env) (_ctx : Ctx) (g : GenState) : Except Err Str × GenState :=
  (Except.ok (str ("\\N")), g)

/-- `simple::empty_string`. -/
def emptyStringGen (_env : Env) (_ctx : Ctx) (g : GenState) :
    Except Err Str × GenState :=
  (Except.ok [], g)

/-- `simple::fixed_value`. -/
def fixedValue (_env : Env) (ctx : Ctx) (g : GenState) :
    Except Err Str × GenState :=
  match lookupA ctx.kwargs (str ("value")) with
  | none =>
    (Except.error (Err.missingParameter (str ("value")) (str ("fixed_value"))), g)
  | some (Json.str s) => (Except.ok s, g)
  | some Json.null => (Except.ok (str ("\\N")), g)
  | some other => (Except.ok (jsonRender other), g)

/-- `simple::random_choice`. -/
def randomChoice (env : Env) (ctx : Ctx) (g : GenState) :
    Except Err Str × GenState :=
  match (lookupA ctx.kwargs (str ("choices"))).bind (fun j => match j with
      | Json.arr a => some a
      | _ => none) with
  | none =>
    (Except.error
      (Err.missingParameter (str ("choices")) (str ("random_choice"))), g)
  | some choices =>
    if choices.isEmpty then
      (Except.error (Err.invalidParameter (str ("choices list is empty"))), g)
    else
      let (idx, g2) := genRange env g choices.length
      match choices.getD idx Json.null with
      | Json.str s => (Except.ok s, g2)
      | Json.null => (Except.ok (str ("\\N")), g2)
      | other => (Except.ok (jsonRender other), g2)

/-- One mask instantiation of `contact::phone_number`: the mask is walked
byte-wise; `X` and `#` bytes draw a decimal digit, others are copied. -/
def phoneGen (env : Env) (maskBytes : Bytes) (g : GenState) : Str × GenState :=
  maskBytes.foldl (fun acc b =>
    if b = 88 ∨ b = 35 then
      let (d, g2) := genRange env acc.2 10
      (acc.1 ++ [48 + d], g2)
    else (acc.1 ++ [b], acc.2)) ([], g)

/-- `contact::phone_number`. -/
def phoneNumber (env : Env) (ctx : Ctx) (g : GenState) :
    Except Err Str × GenState :=
  match getStrKwarg ctx (str ("mask")) with
  | none =>
    (Except.error (Err.missingParameter (str ("mask")) (str ("phone_number"))), g)
  | some mask =>
    let maskBytes := encodeUtf8 mask
    if getBoolKwarg ctx (str ("unique")) then
      generateUnique (phoneGen env maskBytes) maxRetries g
    else
      let (v, g2) := phoneGen env maskBytes g
      (Except.ok v, g2)

/-- One mask instantiation of `mask::string_by_mask`: the mask is walked
character-wise; the char placeholder draws an uppercase letter, the digit
placeholder draws a decimal digit, others are copied. -/
def maskGen (env : Env) (charPh digitPh : Nat) (mask : Str) (g : GenState) :
    Str × GenState :=
  mask.foldl (fun acc ch =>
    if ch = charPh then
      let (d, g2) := genRange env acc.2 26
      (acc.1 ++ [65 + d], g2)
    else if ch = digitPh then
      let (d, g2) := genRange env acc.2 10
      (acc.1 ++ [48 + d], g2)
    else (acc.1 ++ [ch], acc.2)) ([], g)

/-- `mask::string_by_mask`. -/
def stringByMask (env : Env) (ctx : Ctx) (g : GenState) :
    Except Err Str × GenState :=
  match getStrKwarg ctx (str ("mask")) with
  | none =>
    (Except.error
      (Err.missingParameter (str ("mask")) (str ("string_by_mask"))), g)
  | some mask =>
    let charPh := ((getStrKwarg ctx (str ("char"))).bind List.head?).getD 64
    let digitPh := ((getStrKwarg ctx (str ("digit"))).bind List.head?).getD 35
    if getBoolKwarg ctx (str ("unique")) then
      generateUnique (maskGen env charPh digitPh mask) maxRetries g
    else
      let (v, g2) := maskGen env charPh digitPh mask g
      (Except.ok v, g2)

/-- ASCII decimal digit test (`char::is_ascii_digit`). -/
def isDigitCp (c : Nat) : Bool := decide (48 ≤ c ∧ c ≤ 57)

/-- Indices of ASCII digits in a scalar string, in increasing order
(`chars().enumerate().filter(is_ascii_digit)`). -/
def digitPositions (s : Str) : List Nat :=
  (List.range s.length).filter (fun i => isDigitCp (s.getD i 0))

/-- Write values back at given positions (`result_chars[pos] = digit`). -/
def applyUpdates (s : Str) (ps : List (Nat × Nat)) : Str :=
  ps.foldl (fun s2 p => s2.set p.1 p.2) s

/-- `contact::deterministic_phone`: requires the count kwarg and both
secrets, selects the last `count` digit positions, shuffles those digits
with a PRNG seeded from HMAC-SHA256(nonce ++ key, a fixed message) —
abstracted as `env.shuffle` applied to the key material — and writes them
back in place. -/
def deterministicPhone (env : Env) (ctx : Ctx) (g : GenState) :
    Except Err Str × GenState :=
  match (lookupA ctx.kwargs (str ("obfuscated_numbers_count"))).bind jsonAsU64 with
  | none =>
    (Except.error (Err.missingParameter (str ("obfuscated_numbers_count"))
      (str ("deterministic_phone_number"))), g)
  | some count =>
    let secretKey := (lookupA ctx.secrets (str ("SECRET_KEY"))).getD []
    let nonce := (lookupA ctx.secrets (str ("SECRET_KEY_NONCE"))).getD []
    if secretKey = [] then
      (Except.error
        (Err.mutationError (str ("SECRET_KEY environment variable not set"))), g)
    else if nonce = [] then
      (Except.error
        (Err.mutationError
          (str ("SECRET_KEY_NONCE environment variable not set"))), g)
    else
      let positions := digitPositions ctx.currentValue
      if positions.length < count then
        (Except.error (Err.mutationError (str ("Not enough digits to obfuscate"))), g)
      else
        let toShuffle := positions.drop (positions.length - count)
        let digits := toShuffle.map (fun p => ctx.currentValue.getD p 0)
        let shuffled := env.shuffle (nonce ++ secretKey) digits
        (Except.ok (applyUpdates ctx.currentValue (toShuffle.zip shuffled)), g)

/-- Names of the corpus/uuid/numeric/date/network generators whose bodies
this embedding treats as opaque (`env.ext`); the spec scopes them out as
an interchangeable fake-data capability set. -/
def extNames : List Str :=
  [str ("first_name"), str ("last_name"), str ("full_name"), str ("middle_name"),
   str ("email"), str ("address"),
   str ("numeric_smallint"), str ("numeric_integer"), str ("numeric_bigint"),
   str ("numeric_decimal"), str ("numeric_real"), str ("numeric_double_precision"),
   str ("numeric_smallserial"), str ("numeric_serial"), str ("numeric_bigserial"),
   str ("date"), str ("uri"), str ("ipv4"), str ("ipv6"),
   str ("uuid4"), str ("uuid5_by_source_value")]

/-- `mutator::dispatch_mutation`: name-indexed dispatch; unknown names
fail with `UnknownMutation`. -/
def dispatchMutation (env : Env) (name : Str) (ctx : Ctx) (g : GenState) :
    Except Err Str × GenState :=
  if name = str ("null") then nullGen env ctx g
  else if name = str ("empty_string") then emptyStringGen env ctx g
  else if name = str ("fixed_value") then fixedValue env ctx g
  else if name = str ("random_choice") then randomChoice env ctx g
  else if name = str ("phone_number") then phoneNumber env ctx g
  else if name = str ("string_by_mask") then stringByMask env ctx g
  else if name = str ("deterministic_phone_number") then deterministicPhone env ctx g
  else if name ∈ extNames then env.ext name ctx g
  else (Except.error (Err.unknownMutation name), g)

/-- Index of a column name, as built by `setup_table`: the index map is
filled left to right with overwrites, so a duplicated name keeps its last
index. -/
def colIndexFrom (cols : List Str) (name : Str) (base : Nat) : Option Nat :=
  match cols with
  | [] => none
  | c :: rest =>
    match colIndexFrom rest name (base + 1) with
    | some i => some i
    | none => if c = name then some base else none

/-- `column_indices.get(name)`. -/
def colIndex (cols : List Str) (name : Str) : Option Nat := colIndexFrom cols name 0

/-- Whether one condition matches the current row values
(`conditions::check_conditions`, loop body).  A missing column or an
out-of-range index never matches; `by_pattern` consults the abstract regex
engine (a pattern that fails to compile matches nothing, which is one of
the functions `rmatch` ranges over). -/
def condMatches (env : Env) (cols : List Str) (vals : List Str)
    (c : Condition) : Bool :=
  match colIndex cols c.column_name with
  | none => false
  | some i =>
    if vals.length ≤ i then false
    else if c.operation = str ("equal") then decide (vals.getD i [] = c.value)
    else if c.operation = str ("not_equal") then decide (vals.getD i [] ≠ c.value)
    else if c.operation = str ("by_pattern") then env.rmatch c.value (vals.getD i [])
    else false

/-- `conditions::check_conditions`: true when the list is empty or at
least one condition matches (conditions are ORed). -/
def checkConditions (env : Env) (cols : List Str) (conds : List Condition)
    (vals : List Str) : Bool :=
  conds.isEmpty || conds.any (condMatches env cols vals)

/-- The relation-lookup loop of `process_line`: walk the spec's relations
in order and adopt the first stored replacement found; relations whose
`from_column_name` is not a column of this table are skipped. -/
def relLookup (st : ProcState) (cols : List Str) (vals : List Str) :
    List Relation → Option Str
  | [] => none
  | r :: rest =>
    match colIndex cols r.from_column_name with
    | none => relLookup st cols vals rest
    | some fidx =>
      match rtLookup st.rel r.table_name r.to_column_name (vals.getD fidx []) with
      | some v => some v
      | none => relLookup st cols vals rest

/-- The relation-store loop run after a successful generation: record the
new value under every relation of the spec. -/
def storeRelations (rels : List Relation) (cols : List Str) (vals : List Str)
    (newVal : Str) (rt : RelationTracker) : RelationTracker :=
  rels.foldl (fun rt2 r =>
    match colIndex cols r.from_column_name with
    | none => rt2
    | some fidx =>
      rtStore rt2 r.table_name r.to_column_name (vals.getD fidx []) newVal) rt

/-- Build the `MutationContext` passed to the dispatched generator. -/
def mkCtx (env : Env) (spec : MutationSpec) (curVal : Str)
    (obf : List (Str × Str)) : Ctx where
  kwargs := spec.mutation_kwargs
  currentValue := curVal
  locale := env.locale
  secrets := env.secrets
  obfuscated := obf

/-- The relation-lookup step for one spec, exactly as guarded in
`process_line` (skipped entirely when the spec has no relations). -/
def specRelLookup (st : ProcState) (spec : MutationSpec) (cols : List Str)
    (vals : List Str) : Option Str :=
  if spec.relations.isEmpty then none else relLookup st cols vals spec.relations

/-- The per-column spec loop of `process_line`: specs are tried in order;
a spec whose conditions do not match is skipped; otherwise a relation hit
adopts the stored value and stops, a successful generation stores its
relations, records the value and stops, and a failed generation falls
through to the next spec (keeping the generator-state side effects). -/
def applySpecs (env : Env) (cols : List Str) (colName : Str) (colIdx : Nat)
    (curVal : Str) :
    List MutationSpec → List Str → List (Str × Str) → ProcState →
      List Str × List (Str × Str) × ProcState
  | [], vals, obf, st => (vals, obf, st)
  | spec :: rest, vals, obf, st =>
    if checkConditions env cols spec.conditions vals then
      match specRelLookup st spec cols vals with
      | some v => (vals.set colIdx v, (colName, v) :: obf, st)
      | none =>
        match dispatchMutation env spec.mutation_name (mkCtx env spec curVal obf)
            st.gen with
        | (Except.ok newVal, g2) =>
          (vals.set colIdx newVal, (colName, newVal) :: obf,
            { gen := g2,
              rel := storeRelations spec.relations cols vals newVal st.rel })
        | (Except.error _, g2) =>
          applySpecs env cols colName colIdx curVal rest vals obf { st with gen := g2 }
    else applySpecs env cols colName colIdx curVal rest vals obf st

/-- The column walk of `process_line`: columns are visited in
`sorted_columns` order; names without an index or without directives are
skipped; for each directive column the spec loop runs with the column's
pre-loop current value. -/
def mutateColumns (env : Env) (cols : List Str)
    (mutations : List (Str × List MutationSpec)) (sorted : List Str)
    (vals0 : List Str) (st0 : ProcState) :
    List Str × List (Str × Str) × ProcState :=
  sorted.foldl (fun acc colName =>
    match acc with
    | (vals, obf, st) =>
      match colIndex cols colName with
      | none => (vals, obf, st)
      | some colIdx =>
        match lookupA mutations colName with
        | none => (vals, obf, st)
        | some specs =>
          applySpecs env cols colName colIdx (vals.getD colIdx []) specs vals obf st)
    (vals0, [], st0)

/-- `DataProcessor::process_line`: `None` for delete-marked tables; rows of
tables without directives, rows that are not valid UTF-8 and rows whose
split does not match the column count are returned unchanged; otherwise
the row is split on the delimiter character, mutated column-wise and
rejoined with the delimiter byte. -/
def processLine (env : Env) (tc : TableCfg) (st : ProcState) (line : Bytes) :
    Option Bytes × ProcState :=
  if tc.isDelete then (none, st)
  else if tc.mutations.isEmpty then (some line, st)
  else
    match decodeUtf8 line with
    | none => (some line, st)
    | some s =>
      let values := splitSep env.delimiter s
      if values.length ≠ tc.columns.length then (some line, st)
      else
        let r := mutateColumns env tc.columns tc.mutations tc.sortedCols values st
        (some (joinSep env.delimiter (r.1.map encodeUtf8)), r.2.2)

/-- Sequential processing of a list of rows, each with its own per-table
configuration, threading the shared processor state (as the drivers do
across COPY payloads and tables). -/
def processChain (env : Env) : List (TableCfg × Bytes) → ProcState → ProcState
  | [], st => st
  | (tc, line) :: rest, st => processChain env rest (processLine env tc st line).2

/-- `sort_columns_by_dependency`: columns whose directives use a
`source_column` kwarg go last, otherwise original order is kept. -/
def sortColumnsByDependency (cols : List Str)
    (mutations : List (Str × List MutationSpec)) : List Str :=
  let hasSource := fun (c : Str) =>
    match lookupA mutations c with
    | none => false
    | some specs => specs.any (fun sp =>
        (lookupA sp.mutation_kwargs (str ("source_column"))).isSome)
  cols.filter (fun c => !(hasSource c)) ++ cols.filter hasSource

/-- `should_delete_table`: a table comment naming the `delete` mutation or
any CLI delete pattern marks the table. -/
def shouldDeleteTable (env : Env) (tms : List (Str × TableMutationSpec))
    (t : Str) : Bool :=
  (match lookupA tms t with
   | some spec => decide (spec.mutation_name = str ("delete"))
   | none => false) ||
  env.deletePatterns.any (fun p => p t)

/-- ASCII whitespace predicate used by the COPY column-list trim. -/
def isWs (c : Nat) : Bool := c = 32 || c = 9 || c = 10 || c = 13

/-- Trim leading and trailing whitespace (`str::trim`). -/
def trimWs (s : Str) : Str := ((s.dropWhile isWs).reverse.dropWhile isWs).reverse

/-- Split a COPY column list on the literal two-character separator of
`split(", ")`. -/
def splitCommaSpace : Str → List Str
  | [] => [[]]
  | [c] =>
    match splitCommaSpace [] with
    | [] => [[]]
    | p :: ps => (c :: p) :: ps
  | c1 :: c2 :: rest =>
    if c1 = 44 ∧ c2 = 32 then [] :: splitCommaSpace rest
    else
      match splitCommaSpace (c2 :: rest) with
      | [] => [[]]
      | p :: ps => (c1 :: p) :: ps

/-- `DataProcessor::setup_table`: when the line is a COPY statement, build
the per-table configuration (columns, directives, dependency order, delete
mark) and clear the unique tracker; otherwise change nothing. -/
def setupTable (env : Env) (mm : List (Str × List (Str × List MutationSpec)))
    (tms : List (Str × TableMutationSpec)) (st : ProcState) (line : Str) :
    Option TableCfg × ProcState :=
  match env.copyRe line with
  | none => (none, st)
  | some (tableName, columnsStr) =>
    let columns := (splitCommaSpace columnsStr).map trimWs
    let mutations := (lookupA mm tableName).getD []
    let tc : TableCfg :=
      { currentTable := tableName
        columns := columns
        mutations := mutations
        sortedCols := sortColumnsByDependency columns mutations
        isDelete := shouldDeleteTable env tms tableName }
    (some tc, { st with gen := { st.gen with unique := [] } })

/-- The cleared per-table configuration (`reset_table`). -/
def emptyTableCfg : TableCfg where
  currentTable := []
  columns := []
  mutations := []
  sortedCols := []
  isDelete := false

/-- The maps `parse_comment` fills: the column-directive map and the
table-directive map. -/
structure DirMaps where
  mm : List (Str × List (Str × List MutationSpec))
  tms : List (Str × TableMutationSpec)

/-- Nested insert `mutation_map.entry(table).or_default().insert(col, specs)`. -/
def insertMM (mm : List (Str × List (Str × List MutationSpec)))
    (t c : Str) (specs : List MutationSpec) :
    List (Str × List (Str × List MutationSpec)) :=
  insertA mm t (insertA ((lookupA mm t).getD []) c specs)

/-- Split a dotted path at its last dot (`rsplitn(2, '.')`): the table
part and the final segment, or nothing when there is no dot. -/
def rsplitDot (s : Str) : Option (Str × Str) :=
  match ((List.range s.length).filter (fun i => s.getD i 0 = 46)).getLast? with
  | none => none
  | some i => some (s.take i, s.drop (i + 1))

/-- `DataProcessor::parse_comment`: recognize column and table directive
comments via the abstract matchers, parse the JSON payload via the
abstract parser (parse failures are swallowed), and update the maps.
Returns whether a comment pattern matched with a well-formed path. -/
def parseComment (env : Env) (dm : DirMaps) (line : Str) : DirMaps × Bool :=
  match env.commentColumnRe line with
  | some (fullName, jsonStr) =>
    match rsplitDot fullName with
    | none => (dm, false)
    | some (tableName, columnName) =>
      match env.parseSpecs jsonStr with
      | some specs => ({ dm with mm := insertMM dm.mm tableName columnName specs }, true)
      | none => (dm, true)
  | none =>
    match env.commentTableRe line with
    | some (tableName, jsonStr) =>
      match env.parseTableSpec jsonStr with
      | some spec => ({ dm with tms := insertA dm.tms tableName spec }, true)
      | none => (dm, true)
    | none => (dm, false)

/-- Bool prefix test on codepoint lists (`str::starts_with`). -/
def strStartsWith (s pre : Str) : Bool := pre.isPrefixOf s

/-- Bool suffix test on codepoint lists (`str::ends_with`). -/
def strEndsWith (s suf : Str) : Bool := suf.isSuffixOf s

/-- Bool substring test on codepoint lists (`str::contains`). -/
def containsSub : Str → Str → Bool
  | s, sub =>
    if sub.isPrefixOf s then true
    else match s with
      | [] => false
      | _ :: t => containsSub t sub

/-- The multi-line directive-comment trigger of the plain driver: a
`COMMENT ON COLUMN`/`COMMENT ON TABLE` line carrying `'anon: ` that does
not yet end in `';`. -/
def anonCommentStart (line : Str) : Bool :=
  (strStartsWith line (str ("COMMENT ON COLUMN ")) ||
    strStartsWith line (str ("COMMENT ON TABLE "))) &&
  containsSub line (str ("'anon: ")) &&
  !(strEndsWith line (str ("';")))

/-- The plain driver's loop state: COPY-mode flag, open multi-line
comment accumulator, directive maps, current table configuration and the
shared processor state. -/
structure PlainState where
  isData : Bool
  commentBuf : Option Str
  dm : DirMaps
  tc : TableCfg
  ps : ProcState

/-- Initial processor state: PRNG at the stream start, empty unique
tracker and empty relation tracker. -/
def initProcState : ProcState where
  gen := { rngPos := 0, unique := [] }
  rel := rtEmpty

/-- Initial plain-driver state (a fresh `DataProcessor`). -/
def initPlainState : PlainState where
  isData := false
  commentBuf := none
  dm := { mm := [], tms := [] }
  tc := emptyTableCfg
  ps := initProcState

/-- One iteration of `PlainHandler::process` over a decoded line,
returning the new state and the bytes written for this line. -/
def plainStep (env : Env) (st : PlainState) (line : Str) : PlainState × Bytes :=
  if st.isData then
    if line = str ("\\.") then
      ({ st with isData := false, tc := emptyTableCfg },
        if st.tc.isDelete then [] else encodeUtf8 (str ("\\.")) ++ [10])
    else
      match processLine env st.tc st.ps (encodeUtf8 line) with
      | (some mutated, ps2) => ({ st with ps := ps2 }, mutated ++ [10])
      | (none, ps2) => ({ st with ps := ps2 }, [])
  else
    match st.commentBuf with
    | some buf =>
      let buf2 := buf ++ 10 :: line
      if strEndsWith line (str ("';")) then
        let pr := parseComment env st.dm buf2
        ({ st with commentBuf := none, dm := pr.1 }, encodeUtf8 buf2 ++ [10])
      else ({ st with commentBuf := some buf2 }, [])
    | none =>
      if anonCommentStart line then ({ st with commentBuf := some line }, [])
      else
        let pr := parseComment env st.dm line
        let dm2 := pr.1
        match setupTable env dm2.mm dm2.tms st.ps line with
        | (some tc, ps2) =>
          ({ st with dm := dm2, tc := tc, ps := ps2, isData := true },
            if tc.isDelete then [] else encodeUtf8 line ++ [10])
        | (none, ps2) =>
          ({ st with dm := dm2, ps := ps2 }, encodeUtf8 line ++ [10])

/-- Strip one trailing carriage return, as `BufRead::lines` does for lines
that ended with a newline. -/
def stripCR (s : List Nat) : List Nat :=
  if s.getLast? = some 13 then s.dropLast else s

/-- The line iterator `BufRead::lines` over a byte stream: newline-split
segments, carriage returns stripped from newline-terminated lines, an
empty final segment dropped, each line decoded as UTF-8 (`none` when any
line is invalid, which aborts the driver). -/
def toLines (b : Bytes) : Option (List Str) :=
  let segs := splitSep 10 b
  let body := segs.dropLast
  let last := (segs.getLast?).getD []
  ((body.map stripCR) ++ (if last.isEmpty then [] else [last])).mapM decodeUtf8

/-- Run the plain driver's loop over decoded lines, concatenating the
written bytes. -/
def plainRunGo (env : Env) (st : PlainState) : List Str → Bytes
  | [] => []
  | l :: ls =>
    let r := plainStep env st l
    r.2 ++ plainRunGo env r.1 ls

/-- `PlainHandler::process`: iterate lines; a UTF-8-invalid line aborts
the run with an IO error. -/
def plainHandler (env : Env) (b : Bytes) : Except Err Bytes :=
  match toLines b with
  | none => Except.error (Err.ioErr (str ("stream did not contain valid UTF-8")))
  | some ls => Except.ok (plainRunGo env initPlainState ls)

/-- Interpret a 32-bit pattern as a signed `i32` value. -/
def toSigned32 (p : Nat) : Int := if p < 2 ^ 31 then (p : Int) else (p : Int) - 2 ^ 32

/-- Wrap an integer into the `i32` range, as release-mode Rust arithmetic
does on overflow (`wrapping_neg`, overflowing negation). -/
def wrap32 (n : Int) : Int := (n + 2 ^ 31) % 2 ^ 32 - 2 ^ 31

/-- The magnitude-accumulation loop of `DumpIO::read_int`:
`value |= (b as i32) << shift` with `shift += 8` per byte.  Release-mode
`i32` shifts mask the shift amount by 31 and discard overflowing bits,
so the accumulator is the 32-bit pattern below. -/
def readMag : List Nat → Nat → Nat → Nat
  | [], _, acc => acc
  | b :: bs, i, acc => readMag bs (i + 1) (acc ||| b * 2 ^ (8 * i % 32) % 2 ^ 32)

/-- The `i32` produced by `read_int` from a sign byte and magnitude bytes
(`value = -value` when the sign byte is set, wrapping). -/
def readValue (sign : Nat) (mag : List Nat) : Int :=
  let v := toSigned32 (readMag mag 0 0)
  if sign ≠ 0 then wrap32 (-v) else v

/-- `DumpIO::read_int` on a byte stream: one sign byte then `int_size`
magnitude bytes; short streams fail with an IO error. -/
def readIntFrom (isz : Nat) (input : Bytes) : Except Err (Int × Bytes) :=
  match input with
  | [] => Except.error (Err.ioErr (str ("failed to fill whole buffer")))
  | sign :: rest =>
    if rest.length < isz then
      Except.error (Err.ioErr (str ("failed to fill whole buffer")))
    else Except.ok (readValue sign (rest.take isz), rest.drop isz)

/-- The magnitude-emission loop of `DumpIO::write_int`:
`buf[i] = current & 0xFF; current >>= 8` — the low two's-complement byte
and an arithmetic shift, i.e. flooring division. -/
def writeMag : Nat → Int → List Nat
  | 0, _ => []
  | n + 1, cur => (cur % 256).toNat :: writeMag n (Int.fdiv cur 256)

/-- `DumpIO::write_int`: a sign byte then `int_size` magnitude bytes of
the wrapped absolute value (`wrapping_neg` on negatives). -/
def writeInt (isz : Nat) (v : Int) : Bytes :=
  (if v < 0 then 1 else 0) :: writeMag isz (if v < 0 then wrap32 (-v) else v)

/-- A magnitude/sign pair is readable when it has the right arity and
byte range; `readValue` of such a pair is exactly a value `read_int` can
return for this `int_size`. -/
def Readable (isz : Nat) (v : Int) : Prop :=
  ∃ sign mag, mag.length = isz ∧ (∀ b ∈ mag, b < 256) ∧ readValue sign mag = v

/-- The detected dump format. -/
inductive DumpFormat where
  | plain : DumpFormat
  | custom : DumpFormat
deriving DecidableEq

/-- `format::MAGIC_HEADER`. -/
def magicHeader : Bytes := str ("PGDMP")

/-- `format::detect_format` over the peeked initial bytes: a full `PGDMP`
match is custom; otherwise a nonempty stream starting with `PGDM` is also
taken as custom; everything else is plain. -/
def detectFormat (header : Bytes) : DumpFormat :=
  if 5 ≤ header.length ∧ header.take 5 = magicHeader then DumpFormat.custom
  else if ¬header.isEmpty ∧ (str ("PGDM")).isPrefixOf header then DumpFormat.custom
  else DumpFormat.plain

/-- Compression methods recognized by the header parser. -/
inductive CompressionMethod where
  | noComp : CompressionMethod
  | zlib : CompressionMethod
  | lz4 : CompressionMethod
  | zstd : CompressionMethod
deriving DecidableEq

/-- `blocks::OUTPUT_CHUNK_SIZE` (1 MiB). -/
def outputChunkSize : Nat := 1048576

/-- `blocks::MAX_CHUNK_SIZE` (50 MiB). -/
def maxChunkSize : Nat := 52428800

/-- Chunking loop of `slice::chunks`, structurally recursive on a fuel
count (each step consumes at least one element for positive `n`, so fuel
equal to the length never runs out). -/
def chunksOfGo (n : Nat) : Nat → Bytes → List Bytes
  | 0, _ => []
  | fuel + 1, b => if b = [] ∨ n = 0 then [] else b.take n :: chunksOfGo n fuel (b.drop n)

/-- `slice::chunks`: split into runs of at most `n` elements. -/
def chunksOf (n : Nat) (b : Bytes) : List Bytes := chunksOfGo n b.length b

/-- `flush_uncompressed`: emit the buffer as length-prefixed chunks of at
most the output chunk size. -/
def flushUncompressed (isz : Nat) (buf : Bytes) : Bytes :=
  ((chunksOf outputChunkSize buf).map
    (fun ch => writeInt isz (Int.ofNat ch.length) ++ ch)).flatten

/-- Index of the last occurrence of `d` (`memrchr`). -/
def lastIdx (d : Nat) (l : List Nat) : Option Nat :=
  ((List.range l.length).filter (fun i => l.getD i 0 = d)).getLast?

/-- Row loop of `process_complete_lines`, structurally recursive on a
fuel count (each step consumes at least one byte, so fuel equal to the
buffer length never runs out). -/
def processCompleteLinesGo (env : Env) (tc : TableCfg) :
    Nat → Bytes → ProcState → Bytes × ProcState
  | _, [], st => ([], st)
  | 0, _ :: _, st => ([], st)
  | fuel + 1, c0 :: rest0, st =>
    let data := c0 :: rest0
    let e := data.findIdx (fun b => b = 10)
    let line := data.take e
    let first :=
      match processLine env tc st line with
      | (some m, s2) => (m ++ (if e < data.length then [10] else []), s2)
      | (none, s2) => (([] : Bytes), s2)
    let rest := processCompleteLinesGo env tc fuel (data.drop (e + 1)) first.2
    (first.1 ++ rest.1, rest.2)

/-- `process_complete_lines`: walk newline-separated rows in a buffer,
replacing each by its mutation and re-inserting a newline after every row
that was followed by one. -/
def processCompleteLines (env : Env) (tc : TableCfg) (data : Bytes)
    (st : ProcState) : Bytes × ProcState :=
  processCompleteLinesGo env tc data.length data st

/-- The chunk loop of `process_block_uncompressed`, with fuel bounding the
iteration count (each iteration consumes at least one input byte, so fuel
one above the input length never runs out). -/
def processBlockUncompressedGo (env : Env) (tc : TableCfg) (isz : Nat) :
    Nat → Bytes → Bytes → Bytes → ProcState → Except Err (Bytes × ProcState × Bytes)
  | 0, _, _, _, _ => Except.error (Err.ioErr (str ("fuel exhausted")))
  | fuel + 1, input, lineTail, outputBuf, st =>
    match readIntFrom isz input with
    | Except.error e => Except.error e
    | Except.ok (chunkLen, rest) =>
      if chunkLen = 0 then
        let tailRes :=
          if lineTail ≠ [] then
            match processLine env tc st lineTail with
            | (some m, s2) => (m, s2)
            | (none, s2) => (([] : Bytes), s2)
          else ([], st)
        let buf2 := outputBuf ++ tailRes.1
        let flushed := if buf2 ≠ [] then flushUncompressed isz buf2 else []
        Except.ok (flushed ++ writeInt isz 0, tailRes.2, rest)
      else
        let len := chunkLen.natAbs
        if maxChunkSize < len then
          Except.error (Err.invalidFormat (str ("chunk size exceeds maximum")))
        else if rest.length < len then
          Except.error (Err.ioErr (str ("failed to fill whole buffer")))
        else
          let buf := rest.take len
          let rest2 := rest.drop len
          let data := lineTail ++ buf
          match lastIdx 10 data with
          | some lastNl =>
            let complete := data.take (lastNl + 1)
            let tail2 := data.drop (lastNl + 1)
            let lines := processCompleteLines env tc complete st
            let buf2 := outputBuf ++ lines.1
            if outputChunkSize ≤ buf2.length then
              match processBlockUncompressedGo env tc isz fuel rest2 tail2 [] lines.2 with
              | Except.error e => Except.error e
              | Except.ok (out, stF, remF) =>
                Except.ok (flushUncompressed isz buf2 ++ out, stF, remF)
            else
              processBlockUncompressedGo env tc isz fuel rest2 tail2 buf2 lines.2
          | none =>
            processBlockUncompressedGo env tc isz fuel rest2 data outputBuf st

/-- `process_block_uncompressed`: stream chunks, mutate rows, re-chunk,
terminate with a zero-length chunk. -/
def processBlockUncompressed (env : Env) (isz : Nat) (tc : TableCfg)
    (st : ProcState) (input : Bytes) : Except Err (Bytes × ProcState × Bytes) :=
  processBlockUncompressedGo env tc isz (input.length + 1) input [] [] st

/-- `BlockProcessor::process_block`: zlib and zstd go to their streaming
codecs; the `None` and `Lz4` arms share the uncompressed path, exactly as
the source `match` groups them. -/
def processBlock (env : Env) (isz : Nat) (comp : CompressionMethod)
    (tc : TableCfg) (st : ProcState) (input : Bytes) :
    Except Err (Bytes × ProcState × Bytes) :=
  match comp with
  | CompressionMethod.zlib => env.zlibBlock tc st input
  | CompressionMethod.zstd => env.zstdBlock tc st input
  | CompressionMethod.noComp => processBlockUncompressed env isz tc st input
  | CompressionMethod.lz4 => processBlockUncompressed env isz tc st input

theorem lor_disj (k a b : Nat) (h : a < 2 ^ k) : a ||| 2 ^ k * b = a + 2 ^ k * b := by
  rw [Nat.lor_comm, ← Nat.mul_add_lt_is_or h b, Nat.add_comm]

/-- Little-endian byte list of a natural, `n` bytes. -/
def natMagList : Nat → Nat → List Nat
  | 0, _ => []
  | n + 1, m => m % 256 :: natMagList n (m / 256)

theorem length_natMagList (n m : Nat) : (natMagList n m).length = n := by
  induction n generalizing m with
  | zero => rfl
  | succ n ih => simp [natMagList, ih]

theorem natMagList_lt (n m : Nat) : ∀ b ∈ natMagList n m, b < 256 := by
  induction n generalizing m with
  | zero => simp [natMagList]
  | succ n ih =>
    intro b hb
    simp only [natMagList, List.mem_cons] at hb
    rcases hb with rfl | hb
    · exact Nat.mod_lt _ (by omega)
    · exact ih (m / 256) b hb

theorem writeMag_ofNat (n m : Nat) : writeMag n ((m : Nat) : Int) = natMagList n m := by
  induction n generalizing m with
  | zero => rfl
  | succ n ih =>
    simp only [writeMag, natMagList]
    have hf : Int.fdiv ((m : Nat) : Int) 256 = ((m / 256 : Nat) : Int) := by
      rw [show (256 : Int) = ((256 : Nat) : Int) from rfl, ← Int.ofNat_fdiv]
    have hm : (((m : Nat) : Int) % 256).toNat = m % 256 := by omega
    rw [hm, hf, ih]

/-- Little-endian value of a byte list. -/
def leVal : List Nat → Nat
  | [] => 0
  | b :: bs => b + 256 * leVal bs

theorem leVal_natMagList (n m : Nat) : leVal (natMagList n m) = m % 256 ^ n := by
  induction n generalizing m with
  | zero => simp [natMagList, leVal, Nat.mod_one]
  | succ n ih =>
    simp only [natMagList, leVal, ih]
    rw [pow_succ']
    rw [Nat.mod_mul]

theorem leVal_lt (bs : List Nat) (hb : ∀ b ∈ bs, b < 256) :
    leVal bs < 256 ^ bs.length := by
  induction bs with
  | nil => simp [leVal]
  | cons b bs ih =>
    have h1 : b < 256 := hb b (by simp)
    have h2 : leVal bs < 256 ^ bs.length := ih (fun x hx => hb x (by simp [hx]))
    simp only [leVal, List.length_cons, pow_succ]
    have h3 : 256 * leVal bs ≤ 256 * (256 ^ bs.length - 1) :=
      Nat.mul_le_mul_left 256 (by omega)
    have h4 : 0 < 256 ^ bs.length := Nat.pos_pow_of_pos _ (by omega)
    omega

theorem readMag_zeros (bs : List Nat) (i acc : Nat) (h : ∀ b ∈ bs, b = 0) :
    readMag bs i acc = acc := by
  induction bs generalizing i acc with
  | nil => rfl
  | cons b bs ih =>
    have hb : b = 0 := h b (by simp)
    subst hb
    simp only [readMag, Nat.zero_mul, Nat.zero_mod, Nat.or_zero]
    exact ih (i + 1) acc (fun x hx => h x (by simp [hx]))

theorem readMag_append (xs ys : List Nat) (i acc : Nat) :
    readMag (xs ++ ys) i acc = readMag ys (xs.length + i) (readMag xs i acc) := by
  induction xs generalizing i acc with
  | nil => simp [readMag]
  | cons x xs ih =>
    simp only [List.cons_append, readMag, List.length_cons, ih]
    rw [show xs.length + 1 + i = xs.length + (i + 1) by omega]
    exact ih (i + 1) _

theorem readMag_lt (bs : List Nat) (i acc : Nat) (h : acc < 2 ^ 32) :
    readMag bs i acc < 2 ^ 32 := by
  induction bs generalizing i acc with
  | nil => exact h
  | cons b bs ih =>
    simp only [readMag]
    exact ih (i + 1) _ (Nat.or_lt_two_pow h (Nat.mod_lt _ (by omega)))

theorem readMag_low (bs : List Nat) :
    ∀ (i acc : Nat), (∀ b ∈ bs, b < 256) → bs.length + i ≤ 4 → acc < 2 ^ (8 * i) →
    readMag bs i acc = acc + leVal bs * 2 ^ (8 * i) := by
  induction bs with
  | nil => intro i acc _ _ _; simp [readMag, leVal]
  | cons b bs ih =>
    intro i acc hb hlen hacc
    have hblt : b < 256 := hb b (by simp)
    have hi : i ≤ 3 := by
      simp only [List.length_cons] at hlen
      omega
    have hstep : ∀ (j : Nat), j = i → readMag (b :: bs) i acc =
        readMag bs (i + 1) (acc ||| b * 2 ^ (8 * i % 32) % 2 ^ 32) := by
      intro j _
      rfl
    rw [hstep i rfl]
    have hm32 : 8 * i % 32 = 8 * i := Nat.mod_eq_of_lt (by omega)
    have hsm : b * 2 ^ (8 * i) < 2 ^ 32 := by
      have : (2 : Nat) ^ (8 * i) ≤ 2 ^ 24 := Nat.pow_le_pow_right (by omega) (by omega)
      calc b * 2 ^ (8 * i) ≤ 255 * 2 ^ 24 := by
            exact Nat.mul_le_mul (by omega) this
        _ < 2 ^ 32 := by norm_num
    rw [hm32, Nat.mod_eq_of_lt hsm]
    have hcomm : b * 2 ^ (8 * i) = 2 ^ (8 * i) * b := Nat.mul_comm _ _
    rw [hcomm, lor_disj (8 * i) acc b hacc]
    have hrec := ih (i + 1) (acc + 2 ^ (8 * i) * b)
      (fun x hx => hb x (by simp [hx]))
      (by simp only [List.length_cons] at hlen; omega)
      (by
        have hpow : (2 : Nat) ^ (8 * (i + 1)) = 2 ^ (8 * i) * 256 := by
          rw [show 8 * (i + 1) = 8 * i + 8 by omega, pow_add]
          norm_num
        rw [hpow]
        have h4 : 0 < (2 : Nat) ^ (8 * i) := Nat.pos_pow_of_pos _ (by omega)
        nlinarith)
    rw [hrec]
    simp only [leVal]
    have hpow : (2 : Nat) ^ (8 * (i + 1)) = 2 ^ (8 * i) * 256 := by
      rw [show 8 * (i + 1) = 8 * i + 8 by omega, pow_add]
      norm_num
    rw [hpow]
    ring

theorem natMagList_append (a b m : Nat) :
    natMagList (a + b) m = natMagList a m ++ natMagList b (m / 256 ^ a) := by
  induction a generalizing m with
  | zero => simp [natMagList]
  | succ a ih =>
    have : a + 1 + b = (a + b) + 1 := by omega
    rw [this]
    simp only [natMagList, List.cons_append, ih]
    congr 2
    rw [Nat.div_div_eq_div_mul, pow_succ']

theorem natMagList_zero_val (n : Nat) : ∀ b ∈ natMagList n 0, b = 0 := by
  induction n with
  | zero => simp [natMagList]
  | succ n ih =>
    intro b hb
    simp only [natMagList, Nat.zero_mod, Nat.zero_div, List.mem_cons] at hb
    rcases hb with rfl | hb
    · rfl
    · exact ih b hb

theorem wrap32_eq_self (n : Int) (h1 : -(2 ^ 31) ≤ n) (h2 : n < 2 ^ 31) :
    wrap32 n = n := by
  unfold wrap32
  omega

theorem pow256_eq (n : Nat) : (256 : Nat) ^ n = 2 ^ (8 * n) := by
  rw [show (256 : Nat) = 2 ^ 8 from rfl, ← pow_mul]

/-- Range of any value `read_int` can produce: always within `i32`, and
within the magnitude width for small `int_size`. -/
theorem readValue_bounds (sign : Nat) (mag : List Nat)
    (hb : ∀ b ∈ mag, b < 256) :
    -(2 ^ 31) ≤ readValue sign mag ∧ readValue sign mag < 2 ^ 31 ∧
      (mag.length ≤ 3 →
        -(2 ^ (8 * mag.length)) < readValue sign mag ∧
          readValue sign mag < 2 ^ (8 * mag.length)) := by
  have hp : readMag mag 0 0 < 2 ^ 32 := readMag_lt mag 0 0 (by norm_num)
  have hsmall : mag.length ≤ 3 → readMag mag 0 0 < 2 ^ (8 * mag.length) := by
    intro hlen
    have h1 := readMag_low mag 0 0 hb (by omega) (by norm_num)
    rw [h1]
    have h2 := leVal_lt mag hb
    rw [pow256_eq] at h2
    omega
  unfold readValue toSigned32
  by_cases hs : sign ≠ 0
  · rw [if_pos hs]
    by_cases hlt : readMag mag 0 0 < 2 ^ 31
    · rw [if_pos hlt]
      unfold wrap32
      refine ⟨by omega, by omega, fun hlen => ?_⟩
      have := hsmall hlen
      have hcast : ((2 ^ (8 * mag.length) : Nat) : Int) = (2 : Int) ^ (8 * mag.length) := by
        push_cast
        ring
      have hple : (2 : Nat) ^ (8 * mag.length) ≤ 2 ^ 24 :=
        Nat.pow_le_pow_right (by omega) (by omega)
      omega
    · rw [if_neg hlt]
      unfold wrap32
      refine ⟨by omega, by omega, fun hlen => ?_⟩
      have := hsmall hlen
      have hcast : ((2 ^ (8 * mag.length) : Nat) : Int) = (2 : Int) ^ (8 * mag.length) := by
        push_cast
        ring
      have hple : (2 : Nat) ^ (8 * mag.length) ≤ 2 ^ 24 :=
        Nat.pow_le_pow_right (by omega) (by omega)
      omega
  · rw [if_neg hs]
    by_cases hlt : readMag mag 0 0 < 2 ^ 31
    · rw [if_pos hlt]
      refine ⟨by omega, by omega, fun hlen => ?_⟩
      have := hsmall hlen
      have hcast : ((2 ^ (8 * mag.length) : Nat) : Int) = (2 : Int) ^ (8 * mag.length) := by
        push_cast
        ring
      omega
    · rw [if_neg hlt]
      refine ⟨by omega, by omega, fun hlen => ?_⟩
      have := hsmall hlen
      have hcast : ((2 ^ (8 * mag.length) : Nat) : Int) = (2 : Int) ^ (8 * mag.length) := by
        push_cast
        ring
      have hple : (2 : Nat) ^ (8 * mag.length) ≤ 2 ^ 24 :=
        Nat.pow_le_pow_right (by omega) (by omega)
      omega

/-- Reading back the little-endian bytes written for a magnitude below
`2^31` (and below the magnitude width) recovers the magnitude. -/
theorem readMag_writeBytes (isz m : Nat) (h1 : 1 ≤ isz) (h2 : isz ≤ 8)
    (hm31 : m < 2 ^ 31) (hsmall : isz ≤ 3 → m < 2 ^ (8 * isz)) :
    readMag (natMagList isz m) 0 0 = m := by
  have hm4 : ∀ k, k ≤ 4 → 1 ≤ k → (k ≤ 3 → m < 2 ^ (8 * k)) →
      readMag (natMagList k m) 0 0 = m := by
    intro k hk4 hk1 hks
    have hlow := readMag_low (natMagList k m) 0 0 (natMagList_lt k m)
      (by rw [length_natMagList]; omega) (by norm_num)
    rw [hlow, leVal_natMagList]
    have hmlt : m < 256 ^ k := by
      rw [pow256_eq]
      by_cases hk3 : k ≤ 3
      · exact hks hk3
      · have hk : k = 4 := by omega
        subst hk
        have : (2 : Nat) ^ 31 < 2 ^ (8 * 4) := by norm_num
        omega
    rw [Nat.mod_eq_of_lt hmlt]
    omega
  by_cases hle : isz ≤ 4
  · exact hm4 isz hle h1 hsmall
  · have hsplit : isz = 4 + (isz - 4) := by omega
    rw [hsplit, natMagList_append]
    have hdiv : m / 256 ^ 4 = 0 := by
      apply Nat.div_eq_of_lt
      have : (256 : Nat) ^ 4 = 2 ^ 32 := by norm_num
      omega
    rw [hdiv]
    rw [readMag_append]
    rw [hm4 4 (by omega) (by omega) (by omega)]
    exact readMag_zeros _ _ _ (natMagList_zero_val _)

instance {e a : Type} [DecidableEq e] [DecidableEq a] : DecidableEq (Except e a) :=
  fun x y =>
  match x, y with
  | Except.ok v, Except.ok w =>
    if h : v = w then isTrue (by rw [h])
    else isFalse (fun hc => h (Except.ok.inj hc))
  | Except.error v, Except.error w =>
    if h : v = w then isTrue (by rw [h])
    else isFalse (fun hc => h (Except.error.inj hc))
  | Except.ok _, Except.error _ => isFalse (fun hc => Except.noConfusion hc)
  | Except.error _, Except.ok _ => isFalse (fun hc => Except.noConfusion hc)

theorem readIntFrom_cons (isz s : Nat) (bytes : Bytes) :
    readIntFrom isz (s :: bytes) =
      if bytes.length < isz then
        Except.error (Err.ioErr (str ("failed to fill whole buffer")))
      else Except.ok (readValue s (bytes.take isz), bytes.drop isz) := rfl

/-- C8 (amended): for every `int_size` in `[1,8]` and every value
obtainable by `read_int` at that size, `write_int` followed by `read_int`
yields the value again, provided `int_size ≤ 4` or the value is not
`i32::MIN`; in particular negating `i32::MIN` is wrapping and does not
fault, and the `int_size = 4` round trip of `i32::MIN` succeeds.  (For
`int_size` in `[5,8]` the arithmetic right shift of `write_int` sign-
extends the high magnitude bytes of `i32::MIN` and the masked shifts of
`read_int` fold them back onto the low 32 bits, breaking that one round
trip — see the counterexample.) -/
theorem claim_C8 (isz : Nat) (v : Int) (h1 : 1 ≤ isz) (h2 : isz ≤ 8)
    (hr : Readable isz v) (hex : isz ≤ 4 ∨ v ≠ -(2 ^ 31)) :
    readIntFrom isz (writeInt isz v) = Except.ok (v, []) := by
  obtain ⟨sign, mag, hlen, hb, hval⟩ := hr
  have hbounds := readValue_bounds sign mag hb
  rw [hval, hlen] at hbounds
  obtain ⟨hlo, hhi, htight⟩ := hbounds
  have hcast : ∀ k : Nat, ((2 ^ k : Nat) : Int) = (2 : Int) ^ k := by
    intro k
    push_cast
    ring
  by_cases hneg : v < 0
  · by_cases hmin : v = -(2 ^ 31)
    · have hisz : isz = 4 := by
        rcases hex with hle | hne
        · by_cases h3 : isz ≤ 3
          · exfalso
            have ht := htight h3
            have hple : (2 : Int) ^ (8 * isz) ≤ 2 ^ 24 := by
              apply pow_le_pow_right₀ (by norm_num)
              omega
            rw [hmin] at ht
            have h24 : ((2 : Int) ^ 24) < 2 ^ 31 := by norm_num
            omega
          · omega
        · exact absurd hmin hne
      subst hisz
      subst hmin
      decide
    · have hm1 : (1 : Int) ≤ -v := by omega
      have hm2 : -v < 2 ^ 31 := by omega
      set m := (-v).toNat with hmdef
      have hm : ((m : Nat) : Int) = -v := by omega
      have hwrap : wrap32 (-v) = -v :=
        wrap32_eq_self (-v) (by omega) (by omega)
      rw [writeInt, if_pos hneg, hwrap, ← hm, if_pos hneg, writeMag_ofNat]
      rw [readIntFrom_cons, length_natMagList, if_neg (by omega)]
      have htake : (natMagList isz m).take isz = natMagList isz m := by
        apply List.take_of_length_le
        rw [length_natMagList]
      have hdrop : (natMagList isz m).drop isz = [] := by
        apply List.drop_eq_nil_of_le
        rw [length_natMagList]
      rw [htake, hdrop]
      have hsmall : isz ≤ 3 → m < 2 ^ (8 * isz) := by
        intro h3
        have ht := htight h3
        have := hcast (8 * isz)
        omega
      have hRM := readMag_writeBytes isz m h1 h2 (by omega) hsmall
      rw [readValue]
      simp only [hRM]
      rw [if_pos (by omega)]
      unfold toSigned32
      rw [if_pos (by
        have : (m : Int) < ((2 ^ 31 : Nat) : Int) := by
          rw [hcast 31]
          omega
        exact_mod_cast this)]
      have hv : wrap32 (-(m : Int)) = v := by
        rw [show -(m : Int) = v by omega]
        exact wrap32_eq_self v (by omega) (by omega)
      rw [hv]
  · have h0 : 0 ≤ v := by omega
    set m := v.toNat with hmdef
    have hm : ((m : Nat) : Int) = v := by omega
    rw [writeInt, if_neg hneg, ← hm,
      if_neg (show ¬((m : Nat) : Int) < 0 by omega), writeMag_ofNat]
    rw [readIntFrom_cons, length_natMagList, if_neg (by omega)]
    have htake : (natMagList isz m).take isz = natMagList isz m := by
      apply List.take_of_length_le
      rw [length_natMagList]
    have hdrop : (natMagList isz m).drop isz = [] := by
      apply List.drop_eq_nil_of_le
      rw [length_natMagList]
    rw [htake, hdrop]
    have hsmall : isz ≤ 3 → m < 2 ^ (8 * isz) := by
      intro h3
      have ht := htight h3
      have := hcast (8 * isz)
      omega
    have hRM := readMag_writeBytes isz m h1 h2 (by omega) hsmall
    rw [readValue]
    simp only [hRM]
    rw [if_neg (by omega)]
    unfold toSigned32
    rw [if_pos (by
      have : (m : Int) < ((2 ^ 31 : Nat) : Int) := by
        rw [hcast 31]
        omega
      exact_mod_cast this)]

/-- C8, counterexample to the claim as stated: with `int_size = 8` the
value `i32::MIN` is readable (sign byte 0, magnitude bytes placing bit 31),
yet writing it and reading it back yields `1`, not `i32::MIN`. -/
theorem claim_C8_counterexample :
    readIntFrom 8 ([0] ++ [0, 0, 0, 128, 0, 0, 0, 0]) =
        Except.ok (-(2 ^ 31), [])  ∧
      readIntFrom 8 (writeInt 8 (-(2 ^ 31))) = Except.ok (1, []) ∧
      (1 : Int) ≠ -(2 ^ 31) := by
  refine ⟨by decide, by decide, by decide⟩

/-- C8 witness: a concrete readable value round-trips. -/
theorem claim_C8_witness :
    1 ≤ 4 ∧ (4 : Nat) ≤ 8 ∧ Readable 4 (-300) ∧
      readIntFrom 4 (writeInt 4 (-300)) = Except.ok (-300, []) := by
  have hr : Readable 4 (-300) := ⟨1, [44, 1, 0, 0], by decide, by decide, by decide⟩
  exact ⟨by decide, by decide, hr,
    claim_C8 4 (-300) (by decide) (by decide) hr (Or.inl (by decide))⟩

/-- C9 (amended): format sniffing classifies by prefix, but the decisive
prefix is the four bytes `PGDM`: the input is treated as custom format iff
it begins with `PGDM` (in particular the five bytes `PGDMP`), and as plain
otherwise — including every shorter prefix of `PGDM` and the empty input. -/
theorem claim_C9 (b : Bytes) :
    detectFormat b = DumpFormat.custom ↔ (str ("PGDM")).isPrefixOf b = true := by
  unfold detectFormat
  by_cases h1 : 5 ≤ b.length ∧ b.take 5 = magicHeader
  · rw [if_pos h1]
    simp only [true_iff]
    rw [List.isPrefixOf_iff_prefix]
    have h4 : b.take 4 = str ("PGDM") := by
      have ht : b.take 4 = (b.take 5).take 4 := by
        rw [List.take_take]
        norm_num
      rw [ht, h1.2]
      rfl
    rw [← h4]
    exact List.take_prefix 4 b
  · rw [if_neg h1]
    by_cases h2 : ¬b.isEmpty ∧ (str ("PGDM")).isPrefixOf b
    · rw [if_pos h2]
      simp only [true_iff]
      exact h2.2
    · rw [if_neg h2]
      constructor
      · intro hc
        exact absurd hc (by simp)
      · intro hp
        exfalso
        apply h2
        refine ⟨?_, hp⟩
        cases b with
        | nil => simp [str, List.isPrefixOf] at hp
        | cons x xs => simp

/-- C9, counterexample to the claim as stated: the five bytes `PGDMX`
differ from `PGDMP`, yet `detect_format` classifies them as custom. -/
theorem claim_C9_counterexample :
    detectFormat (str ("PGDMX")) = DumpFormat.custom ∧
      str ("PGDMX") ≠ str ("PGDMP") := by
  refine ⟨by decide, by decide⟩

/-- Concrete collaborator environment used by witnesses: zero PRNG,
nothing-matching regexes, failing external generators, identity shuffle. -/
def env0 : Env where
  delimiter := 9
  locale := Locale.en
  secrets := []
  rng := fun _ => 0
  rmatch := fun _ _ => false
  shuffle := fun _ l => l
  ext := fun _ _ g => (Except.error (Err.mutationError []), g)
  commentColumnRe := fun _ => none
  commentTableRe := fun _ => none
  copyRe := fun _ => none
  parseSpecs := fun _ => none
  parseTableSpec := fun _ => none
  deletePatterns := []
  zlibBlock := fun _ st b => Except.ok ([], st, b)
  zstdBlock := fun _ st b => Except.ok ([], st, b)

/-- Concrete mutation context for witnesses. -/
def ctx0 (kw : List (Str × Json)) (cur : Str) (secrets : List (Str × Str)) : Ctx where
  kwargs := kw
  currentValue := cur
  locale := Locale.en
  secrets := secrets
  obfuscated := []

/-- Fresh generator state for witnesses. -/
def g0 : GenState where
  rngPos := 0
  unique := []

theorem phoneGen_step (env : Env) (acc : Str × GenState) (b : Nat) :
    (fun (acc : Str × GenState) b =>
      if b = 88 ∨ b = 35 then
        let r := genRange env acc.2 10
        (acc.1 ++ [48 + r.1], r.2)
      else (acc.1 ++ [b], acc.2)) acc b =
    if b = 88 ∨ b = 35 then
      (acc.1 ++ [48 + env.rng acc.2.rngPos % 10],
        { acc.2 with rngPos := acc.2.rngPos + 1 })
    else (acc.1 ++ [b], acc.2) := by
  by_cases h : b = 88 ∨ b = 35 <;> simp [h, genRange]

theorem phoneGen_aux (env : Env) (mb : Bytes) :
    ∀ (acc : Str) (g : GenState),
    ∃ out g2, mb.foldl (fun (acc : Str × GenState) b =>
        if b = 88 ∨ b = 35 then
          let r := genRange env acc.2 10
          (acc.1 ++ [48 + r.1], r.2)
        else (acc.1 ++ [b], acc.2)) (acc, g) = (acc ++ out, g2) ∧
      out.length = mb.length ∧
      (∀ i, i < mb.length →
        ((mb.getD i 0 = 88 ∨ mb.getD i 0 = 35) →
          48 ≤ out.getD i 0 ∧ out.getD i 0 ≤ 57) ∧
        (¬(mb.getD i 0 = 88 ∨ mb.getD i 0 = 35) →
          out.getD i 0 = mb.getD i 0)) := by
  induction mb with
  | nil =>
    intro acc g
    exact ⟨[], g, by simp, by simp, by intro i hi; simp at hi⟩
  | cons b mb ih =>
    intro acc g
    by_cases hb : b = 88 ∨ b = 35
    · obtain ⟨out, g2, heq, hlen, hprop⟩ :=
        ih (acc ++ [48 + env.rng g.rngPos % 10]) { g with rngPos := g.rngPos + 1 }
      refine ⟨(48 + env.rng g.rngPos % 10) :: out, g2, ?_, by simp [hlen], ?_⟩
      · rw [List.foldl_cons]
        rw [if_pos hb]
        simp only [genRange]
        rw [show acc ++ (48 + env.rng g.rngPos % 10) :: out =
          acc ++ [48 + env.rng g.rngPos % 10] ++ out by simp]
        exact heq
      · intro i hi
        cases i with
        | zero =>
          refine ⟨fun _ => ?_, fun hc => absurd hb hc⟩
          simp
          omega
        | succ j =>
          have hj : j < mb.length := by simpa using hi
          exact hprop j hj
    · obtain ⟨out, g2, heq, hlen, hprop⟩ := ih (acc ++ [b]) g
      refine ⟨b :: out, g2, ?_, by simp [hlen], ?_⟩
      · rw [List.foldl_cons]
        rw [if_neg hb]
        rw [show acc ++ b :: out = acc ++ [b] ++ out by simp]
        exact heq
      · intro i hi
        cases i with
        | zero => exact ⟨fun hc => absurd hc hb, fun _ => by simp⟩
        | succ j =>
          have hj : j < mb.length := by simpa using hi
          exact hprop j hj

theorem maskGen_aux (env : Env) (charPh digitPh : Nat) (mask : Str) :
    ∀ (acc : Str) (g : GenState),
    ∃ out g2, mask.foldl (fun (acc : Str × GenState) ch =>
        if ch = charPh then
          let r := genRange env acc.2 26
          (acc.1 ++ [65 + r.1], r.2)
        else if ch = digitPh then
          let r := genRange env acc.2 10
          (acc.1 ++ [48 + r.1], r.2)
        else (acc.1 ++ [ch], acc.2)) (acc, g) = (acc ++ out, g2) ∧
      out.length = mask.length ∧
      (∀ i, i < mask.length →
        (mask.getD i 0 = charPh →
          65 ≤ out.getD i 0 ∧ out.getD i 0 ≤ 90) ∧
        (mask.getD i 0 ≠ charPh → mask.getD i 0 = digitPh →
          48 ≤ out.getD i 0 ∧ out.getD i 0 ≤ 57) ∧
        (mask.getD i 0 ≠ charPh → mask.getD i 0 ≠ digitPh →
          out.getD i 0 = mask.getD i 0)) := by
  induction mask with
  | nil =>
    intro acc g
    exact ⟨[], g, by simp, by simp, by intro i hi; simp at hi⟩
  | cons ch mask ih =>
    intro acc g
    by_cases hc : ch = charPh
    · obtain ⟨out, g2, heq, hlen, hprop⟩ :=
        ih (acc ++ [65 + env.rng g.rngPos % 26]) { g with rngPos := g.rngPos + 1 }
      refine ⟨(65 + env.rng g.rngPos % 26) :: out, g2, ?_, by simp [hlen], ?_⟩
      · rw [List.foldl_cons]
        rw [if_pos hc]
        simp only [genRange]
        rw [show acc ++ (65 + env.rng g.rngPos % 26) :: out =
          acc ++ [65 + env.rng g.rngPos % 26] ++ out by simp]
        exact heq
      · intro i hi
        cases i with
        | zero =>
          refine ⟨fun _ => ⟨by simp, by simp; omega⟩,
            fun hne _ => absurd (by simpa using hc) (by simpa using hne),
            fun hne _ => absurd (by simpa using hc) (by simpa using hne)⟩
        | succ j =>
          have hj : j < mask.length := by simpa using hi
          exact hprop j hj
    · by_cases hd : ch = digitPh
      · obtain ⟨out, g2, heq, hlen, hprop⟩ :=
          ih (acc ++ [48 + env.rng g.rngPos % 10]) { g with rngPos := g.rngPos + 1 }
        refine ⟨(48 + env.rng g.rngPos % 10) :: out, g2, ?_, by simp [hlen], ?_⟩
        · rw [List.foldl_cons]
          rw [if_neg hc, if_pos hd]
          simp only [genRange]
          rw [show acc ++ (48 + env.rng g.rngPos % 10) :: out =
            acc ++ [48 + env.rng g.rngPos % 10] ++ out by simp]
          exact heq
        · intro i hi
          cases i with
          | zero =>
            refine ⟨fun hcc => absurd (by simpa using hcc) hc,
              fun _ _ => ⟨by simp, by simp; omega⟩,
              fun _ hne => absurd (by simpa using hd) (by simpa using hne)⟩
          | succ j =>
            have hj : j < mask.length := by simpa using hi
            exact hprop j hj
      · obtain ⟨out, g2, heq, hlen, hprop⟩ := ih (acc ++ [ch]) g
        refine ⟨ch :: out, g2, ?_, by simp [hlen], ?_⟩
        · rw [List.foldl_cons]
          rw [if_neg hc, if_neg hd]
          rw [show acc ++ ch :: out = acc ++ [ch] ++ out by simp]
          exact heq
        · intro i hi
          cases i with
          | zero =>
            refine ⟨fun hcc => absurd (by simpa using hcc) hc,
              fun _ hdd => absurd (by simpa using hdd) hd,
              fun _ _ => by simp⟩
          | succ j =>
            have hj : j < mask.length := by simpa using hi
            exact hprop j hj

/-- C6 (amended): for both `phone_number` and `string_by_mask` the `mask`
kwarg is required (its absence yields a missing-parameter error).  The two
generators use different placeholder alphabets: `phone_number` walks the
mask bytes and replaces exactly the bytes `X` and `#` by decimal digits,
copying every other byte (including `@`) verbatim; `string_by_mask` walks
the mask characters and replaces the char placeholder (default `@`,
overridable by the `char` kwarg) by an uppercase letter and the digit
placeholder (default `#`, overridable by the `digit` kwarg) by a decimal
digit, copying every other character (including `X`) verbatim.  In both
cases the output has the mask's length and equals the mask at
non-placeholder positions. -/
theorem claim_C6 (env : Env) (ctx : Ctx) (g : GenState) :
    (getStrKwarg ctx (str ("mask")) = none →
      phoneNumber env ctx g =
        (Except.error (Err.missingParameter (str ("mask")) (str ("phone_number"))), g) ∧
      stringByMask env ctx g =
        (Except.error (Err.missingParameter (str ("mask")) (str ("string_by_mask"))), g)) ∧
    (∀ mask, getStrKwarg ctx (str ("mask")) = some mask →
      getBoolKwarg ctx (str ("unique")) = false →
      (∃ out g2, phoneNumber env ctx g = (Except.ok out, g2) ∧
        out.length = (encodeUtf8 mask).length ∧
        ∀ i, i < (encodeUtf8 mask).length →
          (((encodeUtf8 mask).getD i 0 = 88 ∨ (encodeUtf8 mask).getD i 0 = 35) →
            48 ≤ out.getD i 0 ∧ out.getD i 0 ≤ 57) ∧
          (¬((encodeUtf8 mask).getD i 0 = 88 ∨ (encodeUtf8 mask).getD i 0 = 35) →
            out.getD i 0 = (encodeUtf8 mask).getD i 0)) ∧
      (∃ out g2, stringByMask env ctx g = (Except.ok out, g2) ∧
        out.length = mask.length ∧
        (∀ i, i < mask.length →
          (mask.getD i 0 = ((getStrKwarg ctx (str ("char"))).bind List.head?).getD 64 →
            65 ≤ out.getD i 0 ∧ out.getD i 0 ≤ 90) ∧
          (mask.getD i 0 ≠ ((getStrKwarg ctx (str ("char"))).bind List.head?).getD 64 →
            mask.getD i 0 = ((getStrKwarg ctx (str ("digit"))).bind List.head?).getD 35 →
            48 ≤ out.getD i 0 ∧ out.getD i 0 ≤ 57) ∧
          (mask.getD i 0 ≠ ((getStrKwarg ctx (str ("char"))).bind List.head?).getD 64 →
            mask.getD i 0 ≠ ((getStrKwarg ctx (str ("digit"))).bind List.head?).getD 35 →
            out.getD i 0 = mask.getD i 0)))) := by
  constructor
  · intro hnone
    constructor
    · simp only [phoneNumber, hnone]
    · simp only [stringByMask, hnone]
  · intro mask hmask hunique
    constructor
    · obtain ⟨out, g2, heq, hlen, hprop⟩ :=
        phoneGen_aux env (encodeUtf8 mask) [] g
      refine ⟨out, g2, ?_, hlen, hprop⟩
      simp only [phoneNumber, hmask, hunique, Bool.false_eq_true, if_false]
      simp only [phoneGen]
      rw [heq]
      simp
    · obtain ⟨out, g2, heq, hlen, hprop⟩ :=
        maskGen_aux env (((getStrKwarg ctx (str ("char"))).bind List.head?).getD 64)
          (((getStrKwarg ctx (str ("digit"))).bind List.head?).getD 35) mask [] g
      refine ⟨out, g2, ?_, hlen, hprop⟩
      simp only [stringByMask, hmask, hunique, Bool.false_eq_true, if_false]
      simp only [maskGen]
      rw [heq]
      simp

/-- C6, counterexample to the claim as stated: `string_by_mask` leaves an
`X` in the mask verbatim (it is not a digit placeholder there), and
`phone_number` leaves an `@` verbatim (it is not a letter placeholder
there); neither output position is a digit resp. an uppercase letter. -/
theorem claim_C6_counterexample :
    (stringByMask env0 (ctx0 [(str ("mask"), Json.str (str ("X")))] [] []) g0).1 =
        Except.ok (str ("X")) ∧
      ¬(48 ≤ (str ("X")).getD 0 0 ∧ (str ("X")).getD 0 0 ≤ 57) ∧
      (phoneNumber env0 (ctx0 [(str ("mask"), Json.str (str ("@")))] [] []) g0).1 =
        Except.ok (str ("@")) ∧
      ¬(65 ≤ (str ("@")).getD 0 0 ∧ (str ("@")).getD 0 0 ≤ 90) := by
  refine ⟨by decide, by decide, by decide, by decide⟩

/-- C6 witness: with no `mask` kwarg both generators fail with the
missing-parameter error. -/
theorem claim_C6_witness :
    getStrKwarg (ctx0 [] [] []) (str ("mask")) = none ∧
      phoneNumber env0 (ctx0 [] [] []) g0 =
        (Except.error (Err.missingParameter (str ("mask")) (str ("phone_number"))), g0) ∧
      stringByMask env0 (ctx0 [] [] []) g0 =
        (Except.error (Err.missingParameter (str ("mask")) (str ("string_by_mask"))), g0) :=
  ⟨rfl, ((claim_C6 env0 (ctx0 [] [] []) g0).1 rfl).1,
    ((claim_C6 env0 (ctx0 [] [] []) g0).1 rfl).2⟩

theorem applyUpdates_length (ps : List (Nat × Nat)) (s : Str) :
    (applyUpdates s ps).length = s.length := by
  induction ps generalizing s with
  | nil => rfl
  | cons p ps ih =>
    simp only [applyUpdates, List.foldl_cons] at ih ⊢
    rw [ih]
    simp

theorem applyUpdates_notin (ps : List (Nat × Nat)) (s : Str) (i : Nat)
    (h : ∀ p ∈ ps, p.1 ≠ i) :
    (applyUpdates s ps).getD i 0 = s.getD i 0 := by
  induction ps generalizing s with
  | nil => rfl
  | cons p ps ih =>
    simp only [applyUpdates, List.foldl_cons] at ih ⊢
    rw [ih _ (fun q hq => h q (by simp [hq]))]
    simp [List.getD, List.getElem?_set_ne (h p (by simp))]

theorem applyUpdates_map_get (ps : List Nat) (vs : List Nat) (s : Str)
    (hlen : ps.length = vs.length) (hlt : ∀ p ∈ ps, p < s.length)
    (hpw : List.Pairwise (· < ·) ps) :
    (ps.map (fun p => (applyUpdates s (ps.zip vs)).getD p 0)) = vs := by
  induction ps generalizing vs s with
  | nil =>
    cases vs with
    | nil => rfl
    | cons v vs => simp at hlen
  | cons p ps ih =>
    cases vs with
    | nil => simp at hlen
    | cons v vs =>
      simp only [List.zip_cons_cons, applyUpdates, List.foldl_cons, List.map_cons]
      have hne : ∀ q ∈ ps.zip vs, q.1 ≠ p := by
        intro q hq
        have hq1 : q.1 ∈ ps := by
          have := List.map_fst_zip ps vs (by simp at hlen; omega)
          rw [← this]
          exact List.mem_map_of_mem Prod.fst hq
        have := (List.pairwise_cons.mp hpw).1 q.1 hq1
        omega
      simp only [List.cons.injEq]
      refine ⟨?_, ?_⟩
      · rw [show List.foldl (fun s2 q => s2.set q.1 q.2) (s.set p v) (ps.zip vs) =
          applyUpdates (s.set p v) (ps.zip vs) from rfl]
        rw [applyUpdates_notin _ _ _ hne]
        simp [List.getD, List.getElem?_set_self, hlt p (by simp)]
      · have hout := ih vs (s.set p v) (by simp at hlen; omega)
          (fun q hq => by
            have := hlt q (by simp [hq])
            simpa using this)
          (List.pairwise_cons.mp hpw).2
        exact hout

theorem digitPositions_lt (s : Str) : ∀ p ∈ digitPositions s, p < s.length := by
  intro p hp
  unfold digitPositions at hp
  have := List.mem_filter.mp hp
  exact List.mem_range.mp this.1

theorem digitPositions_pairwise (s : Str) :
    List.Pairwise (· < ·) (digitPositions s) :=
  List.Pairwise.filter _ (List.pairwise_lt_range s.length)

/-- C7 (amended): `deterministic_phone_number` requires the
`obfuscated_numbers_count` kwarg (there is no default) and both
`SECRET_KEY` and `SECRET_KEY_NONCE` (the nonce is not optional); given
enough digits it deterministically permutes the last
`obfuscated_numbers_count` digits in place via a shuffle seeded from
HMAC-SHA256 of nonce ++ key (it does not draw fresh digits from a digit
stream): every position outside the selected digit positions — all
non-digit characters and all earlier digits — keeps its original
character, the length is preserved, and the selected positions receive
the shuffle's output in order. -/
theorem claim_C7 (env : Env) (ctx : Ctx) (g : GenState) (count : Nat)
    (hcount : (lookupA ctx.kwargs (str ("obfuscated_numbers_count"))).bind jsonAsU64 =
      some count)
    (hkey : (lookupA ctx.secrets (str ("SECRET_KEY"))).getD [] ≠ [])
    (hnonce : (lookupA ctx.secrets (str ("SECRET_KEY_NONCE"))).getD [] ≠ [])
    (hdigits : count ≤ (digitPositions ctx.currentValue).length)
    (hshuffle : ∀ k l, (env.shuffle k l).length = l.length) :
    ∃ out, deterministicPhone env ctx g = (Except.ok out, g) ∧
      out.length = ctx.currentValue.length ∧
      (∀ i, i < ctx.currentValue.length →
        i ∉ (digitPositions ctx.currentValue).drop
            ((digitPositions ctx.currentValue).length - count) →
        out.getD i 0 = ctx.currentValue.getD i 0) ∧
      ((digitPositions ctx.currentValue).drop
          ((digitPositions ctx.currentValue).length - count)).map
            (fun p => out.getD p 0) =
        env.shuffle ((lookupA ctx.secrets (str ("SECRET_KEY_NONCE"))).getD [] ++
            (lookupA ctx.secrets (str ("SECRET_KEY"))).getD [])
          (((digitPositions ctx.currentValue).drop
            ((digitPositions ctx.currentValue).length - count)).map
              (fun p => ctx.currentValue.getD p 0)) := by
  set positions := digitPositions ctx.currentValue with hposdef
  set toShuffle := positions.drop (positions.length - count) with htsdef
  set digits := toShuffle.map (fun p => ctx.currentValue.getD p 0) with hddef
  set key := (lookupA ctx.secrets (str ("SECRET_KEY_NONCE"))).getD [] ++
    (lookupA ctx.secrets (str ("SECRET_KEY"))).getD [] with hkeydef
  set shuffled := env.shuffle key digits with hshufdef
  have hts_len : toShuffle.length = count := by
    rw [htsdef, List.length_drop]
    omega
  have hlens : toShuffle.length = shuffled.length := by
    rw [hshufdef, hshuffle, hddef, List.length_map]
  have hts_lt : ∀ p ∈ toShuffle, p < ctx.currentValue.length := by
    intro p hp
    exact digitPositions_lt ctx.currentValue p (List.mem_of_mem_drop hp)
  have hts_pw : List.Pairwise (· < ·) toShuffle :=
    (digitPositions_pairwise ctx.currentValue).drop
  refine ⟨applyUpdates ctx.currentValue (toShuffle.zip shuffled), ?_, ?_, ?_, ?_⟩
  · simp only [deterministicPhone, hcount]
    rw [if_neg hkey, if_neg hnonce, if_neg (by rw [← hposdef]; omega)]
  · exact applyUpdates_length _ _
  · intro i hi hnotin
    apply applyUpdates_notin
    intro p hp
    have hp1 : p.1 ∈ toShuffle := by
      have := List.map_fst_zip toShuffle shuffled (by omega)
      rw [← this]
      exact List.mem_map_of_mem Prod.fst hp
    intro hcontra
    rw [hcontra] at hp1
    exact hnotin hp1
  · exact applyUpdates_map_get toShuffle shuffled ctx.currentValue
      (by omega) hts_lt hts_pw

/-- C7, counterexample to the claim as stated: with `SECRET_KEY` (and even
`SECRET_KEY_NONCE`) provided, enough digits, and no
`obfuscated_numbers_count` kwarg, the generator fails with a
missing-parameter error instead of defaulting the count to 4; and with
the count given but the nonce absent, it fails instead of treating
`SECRET_KEY_NONCE` as optional. -/
theorem claim_C7_counterexample :
    deterministicPhone env0 (ctx0 [] (str ("12345"))
        [(str ("SECRET_KEY"), str ("k")), (str ("SECRET_KEY_NONCE"), str ("n"))]) g0 =
      (Except.error (Err.missingParameter (str ("obfuscated_numbers_count"))
        (str ("deterministic_phone_number"))), g0) ∧
    deterministicPhone env0 (ctx0
        [(str ("obfuscated_numbers_count"), Json.num 4)] (str ("12345"))
        [(str ("SECRET_KEY"), str ("k"))]) g0 =
      (Except.error (Err.mutationError
        (str ("SECRET_KEY_NONCE environment variable not set"))), g0) := by
  refine ⟨by decide, by decide⟩

/-- C7 witness: the amended theorem applies at a concrete input. -/
theorem claim_C7_witness :
    (lookupA (ctx0 [(str ("obfuscated_numbers_count"), Json.num 2)]
        (str ("a12-34"))
        [(str ("SECRET_KEY"), str ("k")), (str ("SECRET_KEY_NONCE"), str ("n"))]).kwargs
        (str ("obfuscated_numbers_count"))).bind jsonAsU64 = some 2 ∧
    (∃ out, deterministicPhone env0 (ctx0
        [(str ("obfuscated_numbers_count"), Json.num 2)] (str ("a12-34"))
        [(str ("SECRET_KEY"), str ("k")), (str ("SECRET_KEY_NONCE"), str ("n"))]) g0 =
          (Except.ok out, g0) ∧
      out.length = (str ("a12-34")).length ∧
      (∀ i, i < (str ("a12-34")).length →
        i ∉ (digitPositions (str ("a12-34"))).drop
            ((digitPositions (str ("a12-34"))).length - 2) →
        out.getD i 0 = (str ("a12-34")).getD i 0) ∧
      ((digitPositions (str ("a12-34"))).drop
          ((digitPositions (str ("a12-34"))).length - 2)).map
            (fun p => out.getD p 0) =
        env0.shuffle (str ("n") ++ str ("k"))
          (((digitPositions (str ("a12-34"))).drop
            ((digitPositions (str ("a12-34"))).length - 2)).map
              (fun p => (str ("a12-34")).getD p 0))) := by
  refine ⟨by decide, ?_⟩
  exact claim_C7 env0 _ g0 2 (by decide) (by decide) (by decide) (by decide)
    (fun k l => rfl)

/-- A concrete mutating table configuration (one column, `null` directive),
used to exercise the block processor. -/
def tcNull : TableCfg where
  currentTable := str ("public.t")
  columns := [str ("c")]
  mutations := [(str ("c"), [⟨str ("null"), [], [], []⟩])]
  sortedCols := [str ("c")]
  isDelete := false

/-- C4: the claim is right and the code is wrong.  `process_block` routes
`CompressionMethod::Lz4` to the uncompressed path instead of failing: on a
concrete data block of a table with directives (int_size 1, one chunk
holding the row `x` and a newline, then the zero terminator), processing
under the Lz4 header succeeds — returning the mutated, re-chunked block
`[0,3] ++ "\\N\\n" ++ [0,0]` — and is byte-identical to processing the same
block as uncompressed, instead of aborting the run. -/
theorem claim_C4 :
    (processBlock env0 1 CompressionMethod.lz4 tcNull initProcState
        [0, 2, 120, 10, 0, 0]).toOption.map (fun r => r.1) =
      some [0, 3, 92, 78, 10, 0, 0] ∧
    processBlock env0 1 CompressionMethod.lz4 tcNull initProcState
        [0, 2, 120, 10, 0, 0] =
      processBlock env0 1 CompressionMethod.noComp tcNull initProcState
        [0, 2, 120, 10, 0, 0] := by
  refine ⟨by decide, rfl⟩

theorem applySpecs_length (env : Env) (cols : List Str) (colName : Str)
    (colIdx : Nat) (curVal : Str) (specs : List MutationSpec) :
    ∀ vals obf st,
    (applySpecs env cols colName colIdx curVal specs vals obf st).1.length =
      vals.length := by
  induction specs with
  | nil => intro vals obf st; rfl
  | cons spec rest ih =>
    intro vals obf st
    simp only [applySpecs]
    by_cases hc : checkConditions env cols spec.conditions vals
    · rw [if_pos hc]
      rcases hrel : specRelLookup st spec cols vals with _ | v
      · rcases hdis : dispatchMutation env spec.mutation_name
            (mkCtx env spec curVal obf) st.gen with ⟨res, g2⟩
        rcases res with e | newVal
        · simp only [ih]
        · simp
      · simp
    · rw [if_neg hc]
      exact ih vals obf st

theorem mutateColumns_length (env : Env) (cols : List Str)
    (mutations : List (Str × List MutationSpec)) (sorted : List Str) :
    ∀ vals0 st0,
    (mutateColumns env cols mutations sorted vals0 st0).1.length = vals0.length := by
  have haux : ∀ (sorted : List Str) (acc : List Str × List (Str × Str) × ProcState),
      (sorted.foldl (fun acc colName =>
        match acc with
        | (vals, obf, st) =>
          match colIndex cols colName with
          | none => (vals, obf, st)
          | some colIdx =>
            match lookupA mutations colName with
            | none => (vals, obf, st)
            | some specs =>
              applySpecs env cols colName colIdx (vals.getD colIdx []) specs vals obf st)
        acc).1.length = acc.1.length := by
    intro sorted
    induction sorted with
    | nil => intro acc; rfl
    | cons c cs ih =>
      intro acc
      rw [List.foldl_cons]
      rw [ih]
      rcases acc with ⟨vals, obf, st⟩
      rcases colIndex cols c with _ | idx
      · rfl
      · rcases lookupA mutations c with _ | specs
        · rfl
        · exact applySpecs_length env cols c idx (vals.getD idx []) specs vals obf st
  intro vals0 st0
  exact haux sorted (vals0, [], st0)

/-- Hypothesis of the claim's fall-through clause: every configured spec
has no relations and a generator that always fails (e.g. an unknown
mutation name). -/
def AllSpecsFail (env : Env) (mutations : List (Str × List MutationSpec)) : Prop :=
  ∀ col specs, lookupA mutations col = some specs →
    ∀ spec ∈ specs, spec.relations = [] ∧
      ∀ ctx g, ∃ e g2, dispatchMutation env spec.mutation_name ctx g =
        (Except.error e, g2)

theorem applySpecs_allfail (env : Env) (cols : List Str) (colName : Str)
    (colIdx : Nat) (curVal : Str) (specs : List MutationSpec)
    (hfail : ∀ spec ∈ specs, spec.relations = [] ∧
      ∀ ctx g, ∃ e g2, dispatchMutation env spec.mutation_name ctx g =
        (Except.error e, g2)) :
    ∀ vals obf st,
    (applySpecs env cols colName colIdx curVal specs vals obf st).1 = vals ∧
    (applySpecs env cols colName colIdx curVal specs vals obf st).2.1 = obf := by
  induction specs with
  | nil => intro vals obf st; exact ⟨rfl, rfl⟩
  | cons spec rest ih =>
    intro vals obf st
    have hsp := hfail spec (by simp)
    have hrest : ∀ sp ∈ rest, sp.relations = [] ∧
        ∀ ctx g, ∃ e g2, dispatchMutation env sp.mutation_name ctx g =
          (Except.error e, g2) :=
      fun sp hsp2 => hfail sp (by simp [hsp2])
    simp only [applySpecs]
    by_cases hc : checkConditions env cols spec.conditions vals
    · rw [if_pos hc]
      have hrel : specRelLookup st spec cols vals = none := by
        unfold specRelLookup
        rw [hsp.1]
        simp
      rw [hrel]
      obtain ⟨e, g2, hdis⟩ := hsp.2 (mkCtx env spec curVal obf) st.gen
      rw [hdis]
      exact ih hrest vals obf { st with gen := g2 }
    · rw [if_neg hc]
      exact ih hrest vals obf st

theorem mutateColumns_allfail (env : Env) (cols : List Str)
    (mutations : List (Str × List MutationSpec)) (sorted : List Str)
    (hfail : AllSpecsFail env mutations) :
    ∀ vals0 st0,
    (mutateColumns env cols mutations sorted vals0 st0).1 = vals0 := by
  have haux : ∀ (sorted : List Str) (acc : List Str × List (Str × Str) × ProcState),
      (sorted.foldl (fun acc colName =>
        match acc with
        | (vals, obf, st) =>
          match colIndex cols colName with
          | none => (vals, obf, st)
          | some colIdx =>
            match lookupA mutations colName with
            | none => (vals, obf, st)
            | some specs =>
              applySpecs env cols colName colIdx (vals.getD colIdx []) specs vals obf st)
        acc).1 = acc.1 := by
    intro sorted
    induction sorted with
    | nil => intro acc; rfl
    | cons c cs ih =>
      intro acc
      rw [List.foldl_cons]
      rw [ih]
      rcases acc with ⟨vals, obf, st⟩
      rcases h1 : colIndex cols c with _ | idx
      · rfl
      · rcases h2 : lookupA mutations c with _ | specs
        · rfl
        · exact (applySpecs_allfail env cols c idx (vals.getD idx []) specs
            (hfail c specs h2) vals obf st).1
  intro vals0 st0
  exact haux sorted (vals0, [], st0)

theorem processLine_noMut (env : Env) (tc : TableCfg) (st : ProcState)
    (line : Bytes) (hdel : tc.isDelete = false) (hmut : tc.mutations.isEmpty = true) :
    processLine env tc st line = (some line, st) := by
  unfold processLine
  rw [if_neg (by rw [hdel]; simp), if_pos hmut]

theorem processLine_badUtf8 (env : Env) (tc : TableCfg) (st : ProcState)
    (line : Bytes) (hdel : tc.isDelete = false)
    (hmut : ¬tc.mutations.isEmpty = true) (hdec : decodeUtf8 line = none) :
    processLine env tc st line = (some line, st) := by
  unfold processLine
  rw [if_neg (by rw [hdel]; simp), if_neg hmut, hdec]

theorem processLine_badCols (env : Env) (tc : TableCfg) (st : ProcState)
    (line : Bytes) (s : Str) (hdel : tc.isDelete = false)
    (hmut : ¬tc.mutations.isEmpty = true) (hdec : decodeUtf8 line = some s)
    (hne : (splitSep env.delimiter s).length ≠ tc.columns.length) :
    processLine env tc st line = (some line, st) := by
  unfold processLine
  rw [if_neg (by rw [hdel]; simp), if_neg hmut, hdec]
  exact if_pos hne

theorem processLine_mutate (env : Env) (tc : TableCfg) (st : ProcState)
    (line : Bytes) (s : Str) (hdel : tc.isDelete = false)
    (hmut : ¬tc.mutations.isEmpty = true) (hdec : decodeUtf8 line = some s)
    (heq : (splitSep env.delimiter s).length = tc.columns.length) :
    processLine env tc st line =
      (some (joinSep env.delimiter
        ((mutateColumns env tc.columns tc.mutations tc.sortedCols
          (splitSep env.delimiter s) st).1.map encodeUtf8)),
       (mutateColumns env tc.columns tc.mutations tc.sortedCols
          (splitSep env.delimiter s) st).2.2) := by
  unfold processLine
  rw [if_neg (by rw [hdel]; simp), if_neg hmut, hdec]
  exact if_neg (by omega)

/-- C1 (amended): for every row given to the line mutator of a table that
is not delete-marked, the mutator returns `Some(bytes)`; when the
delimiter is an ASCII byte and no value of the mutated row contains the
delimiter character, the output's delimiter count (and hence column
count) equals the input's; and whenever mutation cannot apply — the row
is not valid UTF-8, splitting yields a count different from the table's
column count, or (for an ASCII delimiter) every spec is relation-free
with an always-failing generator (e.g. an unknown mutation name) — the
returned bytes equal the input bytes exactly. -/
theorem claim_C1 (env : Env) (tc : TableCfg) (st : ProcState) (line : Bytes)
    (hdel : tc.isDelete = false) (hd : env.delimiter < 128) :
    (∃ out st2, processLine env tc st line = (some out, st2)) ∧
    (decodeUtf8 line = none → (processLine env tc st line).1 = some line) ∧
    (∀ s, decodeUtf8 line = some s →
      (splitSep env.delimiter s).length ≠ tc.columns.length →
      (processLine env tc st line).1 = some line) ∧
    (∀ s, decodeUtf8 line = some s →
      (splitSep env.delimiter s).length = tc.columns.length →
      (∀ v ∈ (mutateColumns env tc.columns tc.mutations tc.sortedCols
          (splitSep env.delimiter s) st).1, env.delimiter ∉ v) →
      countD env.delimiter (((processLine env tc st line).1).getD []) =
        countD env.delimiter line) ∧
    (AllSpecsFail env tc.mutations → (processLine env tc st line).1 = some line) := by
  by_cases hmut : tc.mutations.isEmpty
  · have hpl := processLine_noMut env tc st line hdel hmut
    refine ⟨⟨line, st, hpl⟩, fun _ => by rw [hpl], fun s _ _ => by rw [hpl],
      fun s _ _ _ => by rw [hpl]; rfl, fun _ => by rw [hpl]⟩
  · rcases hdec : decodeUtf8 line with _ | s0
    · have hpl := processLine_badUtf8 env tc st line hdel hmut hdec
      refine ⟨⟨line, st, hpl⟩, fun _ => by rw [hpl],
        fun s hs => absurd hs (by simp),
        fun s hs => absurd hs (by simp), fun _ => by rw [hpl]⟩
    · have hline : encodeUtf8 s0 = line := decodeUtf8_encode line s0 hdec
      by_cases hcols : (splitSep env.delimiter s0).length = tc.columns.length
      · have hpl := processLine_mutate env tc st line s0 hdel hmut hdec hcols
        refine ⟨⟨_, _, hpl⟩,
          fun hn => absurd hn (by simp),
          fun s hs hne => ?_, fun s hs hlen hfree => ?_, fun hfail => ?_⟩
        · have hss : s = s0 := ((Option.some.injEq _ _).mp hs).symm
          subst hss
          exact absurd hcols hne
        · have hss : s0 = s := (Option.some.injEq _ _).mp hs
          subst hss
          rw [hpl]
          simp only [Option.getD_some]
          set vals2 := (mutateColumns env tc.columns tc.mutations tc.sortedCols
            (splitSep env.delimiter s0) st).1 with hv2
          have hlen2 : vals2.length = (splitSep env.delimiter s0).length :=
            mutateColumns_length env tc.columns tc.mutations tc.sortedCols _ st
          have hne2 : vals2.map encodeUtf8 ≠ [] := by
            have hpos : 0 < (splitSep env.delimiter s0).length := by
              rw [length_splitSep]
              omega
            intro hc
            have hnil := List.map_eq_nil_iff.mp hc
            rw [hnil] at hlen2
            simp at hlen2
            omega
          rw [countD_joinSep env.delimiter (vals2.map encodeUtf8) hne2
            (by
              intro p hp
              obtain ⟨v, hv, rfl⟩ := List.mem_map.mp hp
              exact not_mem_encodeUtf8 env.delimiter v hd (hfree v hv))]
          rw [← hline, countD_encodeUtf8 _ _ hd, List.length_map, hlen2,
            length_splitSep]
          omega
        · rw [hpl]
          have hvals := mutateColumns_allfail env tc.columns tc.mutations
            tc.sortedCols hfail (splitSep env.delimiter s0) st
          simp only [hvals]
          rw [joinSep_map_encode env.delimiter _ hd, joinSep_splitSep, hline]
      · have hpl := processLine_badCols env tc st line s0 hdel hmut hdec hcols
        refine ⟨⟨line, st, hpl⟩,
          fun hn => absurd hn (by simp),
          fun s hs _ => by rw [hpl], fun s hs hlen _ => ?_, fun _ => by rw [hpl]⟩
        have hss : s = s0 := ((Option.some.injEq _ _).mp hs).symm
        subst hss
        exact absurd hlen hcols

/-- Concrete table configuration whose single column carries a
`fixed_value` directive whose value contains a tab. -/
def tcFixedTab : TableCfg where
  currentTable := str ("public.t")
  columns := [str ("c")]
  mutations := [(str ("c"),
    [⟨str ("fixed_value"), [(str ("value"), Json.str [97, 9, 98])], [], []⟩])]
  sortedCols := [str ("c")]
  isDelete := false

/-- Concrete table configuration with two columns and one always-failing
directive (unknown mutation name). -/
def tcNope : TableCfg where
  currentTable := str ("public.t")
  columns := [str ("a"), str ("b")]
  mutations := [(str ("a"), [⟨str ("nope"), [], [], []⟩])]
  sortedCols := [str ("a"), str ("b")]
  isDelete := false

/-- Environment with a non-ASCII delimiter byte (0x80). -/
def env128 : Env := { env0 with delimiter := 128 }

/-- C1, counterexample to the claim as stated: (a) a `fixed_value`
replacement containing the delimiter raises the output's delimiter count
(row `x` becomes `a<TAB>b`); (b) with the non-ASCII delimiter byte 0x80,
a row whose two columns are split on the codepoint U+0080 is rejoined on
the single byte 0x80, so even though the only spec's generator always
fails (unknown name) the returned bytes differ from the input bytes. -/
theorem claim_C1_counterexample :
    (processLine env0 tcFixedTab initProcState [120]).1 = some [97, 9, 98] ∧
      countD 9 [97, 9, 98] ≠ countD 9 [120] ∧
    (processLine env128 tcNope initProcState [194, 128]).1 = some [128] ∧
      ([128] : Bytes) ≠ [194, 128] := by
  refine ⟨by decide, by decide, by decide, by decide⟩

/-- C1 witness: the amended theorem applies at a concrete row; with the
always-failing spec the row passes through unchanged. -/
theorem claim_C1_witness :
    tcNope.isDelete = false ∧ env0.delimiter < 128 ∧
      (processLine env0 tcNope initProcState [120, 9, 121]).1 =
        some [120, 9, 121] := by
  have hfail : AllSpecsFail env0 tcNope.mutations := by
    intro col specs hl spec hsp
    simp only [tcNope, lookupA] at hl
    split at hl
    · simp only [Option.some.injEq] at hl
      subst hl
      simp only [List.mem_singleton] at hsp
      subst hsp
      exact ⟨rfl, fun ctx g => ⟨Err.unknownMutation (str ("nope")), g, by rfl⟩⟩
    · simp at hl
  exact ⟨rfl, by decide,
    (claim_C1 env0 tcNope initProcState [120, 9, 121] rfl (by decide)).2.2.2.2 hfail⟩
/-- C2: per column, specs are tried in insertion order and at most one is
applied: a spec is applicable iff its condition list is empty or some
condition matches the current (possibly already-mutated) values
(conditions are ORed); a non-applicable spec is skipped; an applicable
spec with a relation hit adopts the stored value and stops; an applicable
spec whose generator succeeds writes the generated value, stores its
relations and stops; an applicable spec whose generator fails is skipped
(keeping the generator state) and the next spec is tried; in every case
the column's values are either unchanged or set exactly once. -/
theorem claim_C2 (env : Env) (cols : List Str) (colName : Str) (colIdx : Nat)
    (curVal : Str) (spec : MutationSpec) (rest : List MutationSpec)
    (vals : List Str) (obf : List (Str × Str)) (st : ProcState) :
    (checkConditions env cols spec.conditions vals = true ↔
      spec.conditions = [] ∨
        ∃ c ∈ spec.conditions, condMatches env cols vals c = true) ∧
    (checkConditions env cols spec.conditions vals = false →
      applySpecs env cols colName colIdx curVal (spec :: rest) vals obf st =
        applySpecs env cols colName colIdx curVal rest vals obf st) ∧
    (∀ v, checkConditions env cols spec.conditions vals = true →
      specRelLookup st spec cols vals = some v →
      applySpecs env cols colName colIdx curVal (spec :: rest) vals obf st =
        (vals.set colIdx v, (colName, v) :: obf, st)) ∧
    (∀ newVal g2, checkConditions env cols spec.conditions vals = true →
      specRelLookup st spec cols vals = none →
      dispatchMutation env spec.mutation_name (mkCtx env spec curVal obf) st.gen =
        (Except.ok newVal, g2) →
      applySpecs env cols colName colIdx curVal (spec :: rest) vals obf st =
        (vals.set colIdx newVal, (colName, newVal) :: obf,
          { gen := g2,
            rel := storeRelations spec.relations cols vals newVal st.rel })) ∧
    (∀ e g2, checkConditions env cols spec.conditions vals = true →
      specRelLookup st spec cols vals = none →
      dispatchMutation env spec.mutation_name (mkCtx env spec curVal obf) st.gen =
        (Except.error e, g2) →
      applySpecs env cols colName colIdx curVal (spec :: rest) vals obf st =
        applySpecs env cols colName colIdx curVal rest vals obf
          { st with gen := g2 }) ∧
    (∀ specs vals1 obf1 st1,
      (applySpecs env cols colName colIdx curVal specs vals1 obf1 st1).1 = vals1 ∨
      ∃ v, (applySpecs env cols colName colIdx curVal specs vals1 obf1 st1).1 =
        vals1.set colIdx v) := by
  refine ⟨?_, ?_, ?_, ?_, ?_, ?_⟩
  · simp [checkConditions, List.isEmpty_iff, List.any_eq_true]
  · intro h
    simp [applySpecs, h]
  · intro v h1 h2
    simp [applySpecs, h1, h2]
  · intro newVal g2 h1 h2 h3
    simp [applySpecs, h1, h2, h3]
  · intro e g2 h1 h2 h3
    simp [applySpecs, h1, h2, h3]
  · intro specs
    induction specs with
    | nil => intro vals1 obf1 st1; left; rfl
    | cons sp rest2 ih =>
      intro vals1 obf1 st1
      by_cases hc : checkConditions env cols sp.conditions vals1
      · rcases hrel : specRelLookup st1 sp cols vals1 with _ | v
        · rcases hdm : dispatchMutation env sp.mutation_name
              (mkCtx env sp curVal obf1) st1.gen with ⟨res, g2⟩
          cases res with
          | ok newVal =>
            right
            exact ⟨newVal, by simp [applySpecs, hc, hrel, hdm]⟩
          | error e =>
            have hrec := ih vals1 obf1 { st1 with gen := g2 }
            simpa [applySpecs, hc, hrel, hdm] using hrec
        · right
          exact ⟨v, by simp [applySpecs, hc, hrel]⟩
      · simpa [applySpecs, hc] using ih vals1 obf1 st1

/-- C2 witness: a single always-applicable `null` spec generates and
stops, setting the column once. -/
theorem claim_C2_witness :
    applySpecs env0 [str ("a")] (str ("a")) 0 (str ("x"))
        [⟨str ("null"), [], [], []⟩] [str ("x")] [] initProcState =
      ([str ("\\N")], [(str ("a"), str ("\\N"))],
        { gen := initProcState.gen,
          rel := storeRelations [] [str ("a")] [str ("x")] (str ("\\N"))
            initProcState.rel }) :=
  (claim_C2 env0 [str ("a")] (str ("a")) 0 (str ("x"))
      ⟨str ("null"), [], [], []⟩ [] [str ("x")] [] initProcState).2.2.2.1
    (str ("\\N")) initProcState.gen (by decide) (by rfl) (by rfl)
/-- C10: unique generators of one table share the single per-table set of
emitted values held in the generator state, regardless of column: a
successful `generate_unique` emits a value outside the current set and
records it; across two successful unique generations (by any generators,
at any columns, with the set only growing in between) the second value
differs from the first; a generator that only redraws already-emitted
values exhausts the 1000-retry budget and fails with `UniqueExhausted`;
the `unique: true` paths of `phone_number` and `string_by_mask` are
exactly `generate_unique` with the 1000-retry budget; and `setup_table`
clears the shared set when the next COPY statement is set up. -/
theorem claim_C10 :
    (∀ (gen : GenState → Str × GenState) (n : Nat) (g : GenState) (v : Str)
        (g2 : GenState), (∀ g3, ((gen g3).2).unique = g3.unique) →
      generateUnique gen n g = (Except.ok v, g2) →
      v ∉ g.unique ∧ v ∈ g2.unique ∧ ∀ x ∈ g.unique, x ∈ g2.unique) ∧
    (∀ (gen1 : GenState → Str × GenState) (n1 : Nat) (g : GenState) (v1 : Str)
        (g1 : GenState) (gen2 : GenState → Str × GenState) (n2 : Nat)
        (gmid : GenState) (v2 : Str) (g2 : GenState),
      (∀ g3, ((gen1 g3).2).unique = g3.unique) →
      (∀ g3, ((gen2 g3).2).unique = g3.unique) →
      generateUnique gen1 n1 g = (Except.ok v1, g1) →
      (∀ x ∈ g1.unique, x ∈ gmid.unique) →
      generateUnique gen2 n2 gmid = (Except.ok v2, g2) →
      v2 ≠ v1) ∧
    (∀ (gen : GenState → Str × GenState) (g : GenState),
      (∀ g3, (gen g3).1 ∈ ((gen g3).2).unique) →
      (generateUnique gen maxRetries g).1 =
        Except.error (Err.uniqueExhausted 1000)) ∧
    (∀ (env : Env) (ctx : Ctx) (g : GenState) (mask : Str),
      getStrKwarg ctx (str ("mask")) = some mask →
      getBoolKwarg ctx (str ("unique")) = true →
      phoneNumber env ctx g =
        generateUnique (phoneGen env (encodeUtf8 mask)) maxRetries g ∧
      stringByMask env ctx g =
        generateUnique (maskGen env
          (((getStrKwarg ctx (str ("char"))).bind List.head?).getD 64)
          (((getStrKwarg ctx (str ("digit"))).bind List.head?).getD 35) mask)
          maxRetries g) ∧
    (∀ (env : Env) (mm : List (Str × List (Str × List MutationSpec)))
        (tms : List (Str × TableMutationSpec)) (st : ProcState) (line : Str)
        (tc : TableCfg) (st2 : ProcState),
      setupTable env mm tms st line = (some tc, st2) →
      st2.gen.unique = ([] : List Str)) := by
  have hfresh : ∀ (gen : GenState → Str × GenState) (n : Nat) (g : GenState)
      (v : Str) (g2 : GenState), (∀ g3, ((gen g3).2).unique = g3.unique) →
      generateUnique gen n g = (Except.ok v, g2) →
      v ∉ g.unique ∧ v ∈ g2.unique ∧ ∀ x ∈ g.unique, x ∈ g2.unique := by
    intro gen n
    induction n with
    | zero => intro g v g2 hpres h; simp [generateUnique] at h
    | succ n ih =>
      intro g v g2 hpres h
      rcases hg : gen g with ⟨v0, gA⟩
      have hA : gA.unique = g.unique := by
        have hp := hpres g
        rw [hg] at hp
        exact hp
      simp only [generateUnique, hg] at h
      by_cases hv : v0 ∈ gA.unique
      · simp only [show tryInsert gA v0 = (false, gA) from by
          simp [tryInsert, hv]] at h
        obtain ⟨h1, h2, h3⟩ := ih gA v g2 hpres h
        rw [hA] at h1
        exact ⟨h1, h2, fun x hx => h3 x (by rw [hA]; exact hx)⟩
      · simp only [show tryInsert gA v0 =
            (true, { gA with unique := v0 :: gA.unique }) from by
          simp [tryInsert, hv]] at h
        rw [Prod.mk.injEq] at h
        obtain ⟨h1, h2⟩ := h
        have hvv : v0 = v := by
          simpa using h1
        subst hvv
        subst h2
        refine ⟨by rw [← hA]; exact hv, by simp, ?_⟩
        intro x hx
        simp only [List.mem_cons]
        exact Or.inr (by rw [hA]; exact hx)
  refine ⟨hfresh, ?_, ?_, ?_, ?_⟩
  · intro gen1 n1 g v1 g1 gen2 n2 gmid v2 g2 hp1 hp2 h1 hmid h2 heq
    obtain ⟨_, hin1, _⟩ := hfresh gen1 n1 g v1 g1 hp1 h1
    obtain ⟨hout2, _, _⟩ := hfresh gen2 n2 gmid v2 g2 hp2 h2
    subst heq
    exact hout2 (hmid v2 hin1)
  · intro gen g hdup
    have hgen : ∀ (n : Nat) (g3 : GenState), (generateUnique gen n g3).1 =
        Except.error (Err.uniqueExhausted maxRetries) := by
      intro n
      induction n with
      | zero => intro g3; rfl
      | succ n ih =>
        intro g3
        rcases hg : gen g3 with ⟨v0, gA⟩
        have hv : v0 ∈ gA.unique := by
          have hd := hdup g3
          rw [hg] at hd
          exact hd
        simp only [generateUnique, hg]
        simp only [show tryInsert gA v0 = (false, gA) from by
          simp [tryInsert, hv]]
        exact ih gA
    exact hgen maxRetries g
  · intro env ctx g mask hmask huniq
    constructor
    · simp [phoneNumber, hmask, huniq]
    · simp [stringByMask, hmask, huniq]
  · intro env mm tms st line tc st2 h
    unfold setupTable at h
    rcases hre : env.copyRe line with _ | ⟨tn, cs⟩ <;> rw [hre] at h
    · simp at h
    · simp only [] at h
      rw [Prod.mk.injEq] at h
      obtain ⟨h1, h2⟩ := h
      rw [← h2]

/-- C10 witness: two successive unique generations with the set carried
over produce distinct values; a value emitted once is never re-emitted. -/
theorem claim_C10_witness :
    generateUnique (fun g => (str ("a"), g)) 1 g0 =
      (Except.ok (str ("a")), { g0 with unique := [str ("a")] }) ∧
    generateUnique (fun g => (str ("b"), g)) 1
        { g0 with unique := [str ("a")] } =
      (Except.ok (str ("b")), { g0 with unique := [str ("b"), str ("a")] }) ∧
    str ("b") ≠ (str ("a")) := by
  refine ⟨by decide, by decide, ?_⟩
  exact claim_C10.2.1 (fun g => (str ("a"), g)) 1 g0 (str ("a"))
    { g0 with unique := [str ("a")] } (fun g => (str ("b"), g)) 1
    { g0 with unique := [str ("a")] } (str ("b"))
    { g0 with unique := [str ("b"), str ("a")] }
    (fun g3 => rfl) (fun g3 => rfl) (by decide) (fun x hx => hx) (by decide)
theorem goodRT_empty : GoodRT rtEmpty := by
  intro t c v k h
  simp [rtEmpty] at h

theorem goodRT_store (rt : RelationTracker) (t c v nv : Str) (hg : GoodRT rt) :
    GoodRT (rtStore rt t c v nv) := by
  intro a b w k h
  simp only [rtStore] at h ⊢
  split at h
  · have hk : rt.nextKey = k := by simpa using h
    omega
  · have hk := hg a b w k h
    omega

theorem rtLookup_store_self (rt : RelationTracker) (t c v nv : Str) :
    rtLookup (rtStore rt t c v nv) t c v = some nv := by
  simp [rtLookup, rtStore]

theorem rtLookup_store_preserve (rt : RelationTracker) (t c v val t2 c2 v2 nv : Str)
    (hg : GoodRT rt) (hl : rtLookup rt t c v = some val)
    (hne : ¬(t = t2 ∧ c = c2 ∧ v = v2)) :
    rtLookup (rtStore rt t2 c2 v2 nv) t c v = some val := by
  rcases hfk : rt.fkMap t c v with _ | k
  · simp [rtLookup, hfk] at hl
  · have hk : k < rt.nextKey := hg t c v k hfk
    simp only [rtLookup, hfk, Option.some_bind] at hl
    simp only [rtLookup, rtStore, if_neg hne, hfk, Option.some_bind]
    rw [if_neg (by omega)]
    exact hl

theorem goodRT_storeRelations (cols vals : List Str) (nv : Str) :
    ∀ (rels : List Relation) (rt : RelationTracker), GoodRT rt →
      GoodRT (storeRelations rels cols vals nv rt) := by
  have haux : ∀ (rels : List Relation) (rt : RelationTracker), GoodRT rt →
      GoodRT (rels.foldl (fun rt2 r =>
        match colIndex cols r.from_column_name with
        | none => rt2
        | some fidx =>
          rtStore rt2 r.table_name r.to_column_name (vals.getD fidx []) nv) rt) := by
    intro rels
    induction rels with
    | nil => intro rt hg; exact hg
    | cons r rest ih =>
      intro rt hg
      rw [List.foldl_cons]
      apply ih
      rcases colIndex cols r.from_column_name with _ | fidx
      · exact hg
      · exact goodRT_store _ _ _ _ _ hg
  intro rels rt hg
  exact haux rels rt hg

theorem rtLookup_storeRelations_preserve (cols vals : List Str)
    (nv t c v val : Str) :
    ∀ (rels : List Relation) (rt : RelationTracker), GoodRT rt →
      rtLookup rt t c v = some val →
      (∀ r ∈ rels, ∀ fidx, colIndex cols r.from_column_name = some fidx →
        ¬(t = r.table_name ∧ c = r.to_column_name ∧ v = vals.getD fidx [])) →
      rtLookup (storeRelations rels cols vals nv rt) t c v = some val := by
  have haux : ∀ (rels : List Relation) (rt : RelationTracker), GoodRT rt →
      rtLookup rt t c v = some val →
      (∀ r ∈ rels, ∀ fidx, colIndex cols r.from_column_name = some fidx →
        ¬(t = r.table_name ∧ c = r.to_column_name ∧ v = vals.getD fidx [])) →
      rtLookup (rels.foldl (fun rt2 r =>
        match colIndex cols r.from_column_name with
        | none => rt2
        | some fidx =>
          rtStore rt2 r.table_name r.to_column_name (vals.getD fidx []) nv) rt)
        t c v = some val := by
    intro rels
    induction rels with
    | nil => intro rt hg hl _; exact hl
    | cons r rest ih =>
      intro rt hg hl hne
      rw [List.foldl_cons]
      rcases hci : colIndex cols r.from_column_name with _ | fidx
      · exact ih rt hg hl (fun r2 hr2 => hne r2 (List.mem_cons_of_mem _ hr2))
      · refine ih _ (goodRT_store _ _ _ _ _ hg) ?_
          (fun r2 hr2 => hne r2 (List.mem_cons_of_mem _ hr2))
        exact rtLookup_store_preserve rt t c v val _ _ _ nv hg hl
          (hne r (List.mem_cons_self r rest) fidx hci)
  intro rels rt hg hl hne
  exact haux rels rt hg hl hne

theorem relLookup_none_miss (st : ProcState) (cols vals : List Str) :
    ∀ (rels : List Relation), relLookup st cols vals rels = none →
      ∀ r ∈ rels, ∀ fidx, colIndex cols r.from_column_name = some fidx →
        rtLookup st.rel r.table_name r.to_column_name (vals.getD fidx []) =
          none := by
  intro rels
  induction rels with
  | nil => intro _ r hr; simp at hr
  | cons r0 rest ih =>
    intro h r hr fidx hci
    rw [relLookup] at h
    rcases hc0 : colIndex cols r0.from_column_name with _ | f0
    · simp only [hc0] at h
      rcases List.mem_cons.mp hr with rfl | hr2
      · exact absurd (hci.symm.trans hc0) (by simp)
      · exact ih h r hr2 fidx hci
    · simp only [hc0] at h
      rcases hrt : rtLookup st.rel r0.table_name r0.to_column_name
          (vals.getD f0 []) with _ | v0
      · simp only [hrt] at h
        rcases List.mem_cons.mp hr with rfl | hr2
        · have hf : f0 = fidx := by
            have hs := hc0.symm.trans hci
            exact (Option.some.injEq _ _).mp hs
          rw [← hf]
          exact hrt
        · exact ih h r hr2 fidx hci
      · simp only [hrt] at h
        simp at h

theorem applySpecs_rel_preserve (env : Env) (cols : List Str) (colName : Str)
    (colIdx : Nat) (curVal : Str) (t c v val : Str) :
    ∀ (specs : List MutationSpec) (vals : List Str) (obf : List (Str × Str))
      (st : ProcState), GoodRT st.rel → rtLookup st.rel t c v = some val →
      GoodRT (applySpecs env cols colName colIdx curVal specs vals obf st).2.2.rel ∧
      rtLookup (applySpecs env cols colName colIdx curVal specs vals obf
        st).2.2.rel t c v = some val := by
  intro specs
  induction specs with
  | nil => intro vals obf st hg hl; exact ⟨hg, hl⟩
  | cons spec rest ih =>
    intro vals obf st hg hl
    by_cases hc : checkConditions env cols spec.conditions vals
    · rcases hrel : specRelLookup st spec cols vals with _ | v0
      · rcases hdm : dispatchMutation env spec.mutation_name
            (mkCtx env spec curVal obf) st.gen with ⟨res, g2⟩
        cases res with
        | ok newVal =>
          have heq : applySpecs env cols colName colIdx curVal (spec :: rest)
              vals obf st =
              (vals.set colIdx newVal, (colName, newVal) :: obf,
                { gen := g2,
                  rel := storeRelations spec.relations cols vals newVal
                    st.rel }) := by
            simp [applySpecs, hc, hrel, hdm]
          rw [heq]
          by_cases hre : spec.relations.isEmpty
          · have hnil : spec.relations = [] := by
              simpa using hre
            rw [hnil]
            exact ⟨hg, hl⟩
          · have hrln : relLookup st cols vals spec.relations = none := by
              simp only [specRelLookup] at hrel
              rw [if_neg hre] at hrel
              exact hrel
            have hmiss := relLookup_none_miss st cols vals spec.relations hrln
            have hne : ∀ r ∈ spec.relations, ∀ fidx,
                colIndex cols r.from_column_name = some fidx →
                ¬(t = r.table_name ∧ c = r.to_column_name ∧
                  v = vals.getD fidx []) := by
              rintro r hr fidx hci ⟨h1, h2, h3⟩
              have hm := hmiss r hr fidx hci
              rw [← h1, ← h2, ← h3] at hm
              rw [hl] at hm
              exact absurd hm (by simp)
            exact ⟨goodRT_storeRelations cols vals newVal spec.relations
                st.rel hg,
              rtLookup_storeRelations_preserve cols vals newVal t c v val
                spec.relations st.rel hg hl hne⟩
        | error e =>
          have heq : applySpecs env cols colName colIdx curVal (spec :: rest)
              vals obf st =
              applySpecs env cols colName colIdx curVal rest vals obf
                { st with gen := g2 } := by
            simp [applySpecs, hc, hrel, hdm]
          rw [heq]
          exact ih vals obf { st with gen := g2 } hg hl
      · have heq : applySpecs env cols colName colIdx curVal (spec :: rest)
            vals obf st = (vals.set colIdx v0, (colName, v0) :: obf, st) := by
          simp [applySpecs, hc, hrel]
        rw [heq]
        exact ⟨hg, hl⟩
    · have heq : applySpecs env cols colName colIdx curVal (spec :: rest)
          vals obf st = applySpecs env cols colName colIdx curVal rest vals
            obf st := by
        simp [applySpecs, hc]
      rw [heq]
      exact ih vals obf st hg hl

theorem mutateColumns_rel_preserve (env : Env) (cols : List Str)
    (mutations : List (Str × List MutationSpec)) (sorted : List Str)
    (t c v val : Str) : ∀ (vals0 : List Str) (st0 : ProcState),
    GoodRT st0.rel → rtLookup st0.rel t c v = some val →
    GoodRT (mutateColumns env cols mutations sorted vals0 st0).2.2.rel ∧
    rtLookup (mutateColumns env cols mutations sorted vals0 st0).2.2.rel
      t c v = some val := by
  have haux : ∀ (sorted2 : List Str)
      (acc : List Str × List (Str × Str) × ProcState),
      GoodRT acc.2.2.rel ∧ rtLookup acc.2.2.rel t c v = some val →
      (fun r => GoodRT r.2.2.rel ∧ rtLookup r.2.2.rel t c v = some val)
        (sorted2.foldl (fun acc colName =>
          match acc with
          | (vals, obf, st) =>
            match colIndex cols colName with
            | none => (vals, obf, st)
            | some colIdx =>
              match lookupA mutations colName with
              | none => (vals, obf, st)
              | some specs =>
                applySpecs env cols colName colIdx (vals.getD colIdx [])
                  specs vals obf st) acc) := by
    intro sorted2
    induction sorted2 with
    | nil => intro acc h; exact h
    | cons cn cs ih =>
      intro acc h
      rw [List.foldl_cons]
      apply ih
      rcases acc with ⟨vals, obf, st⟩
      obtain ⟨hg, hl⟩ := h
      rcases colIndex cols cn with _ | idx
      · exact ⟨hg, hl⟩
      · rcases lookupA mutations cn with _ | specs
        · exact ⟨hg, hl⟩
        · exact applySpecs_rel_preserve env cols cn idx (vals.getD idx [])
            t c v val specs vals obf st hg hl
  intro vals0 st0 hg hl
  exact haux sorted (vals0, [], st0) ⟨hg, hl⟩

theorem processLine_rel_preserve (env : Env) (tc : TableCfg) (st : ProcState)
    (line : Bytes) (t c v val : Str) (hg : GoodRT st.rel)
    (hl : rtLookup st.rel t c v = some val) :
    GoodRT (processLine env tc st line).2.rel ∧
    rtLookup (processLine env tc st line).2.rel t c v = some val := by
  by_cases hdel : tc.isDelete
  · have hpl : processLine env tc st line = (none, st) := by
      unfold processLine
      rw [if_pos hdel]
    rw [hpl]
    exact ⟨hg, hl⟩
  · have hdel2 : tc.isDelete = false := by simpa using hdel
    by_cases hmut : tc.mutations.isEmpty
    · rw [processLine_noMut env tc st line hdel2 hmut]
      exact ⟨hg, hl⟩
    · rcases hdec : decodeUtf8 line with _ | s
      · rw [processLine_badUtf8 env tc st line hdel2 hmut hdec]
        exact ⟨hg, hl⟩
      · by_cases hlen : (splitSep env.delimiter s).length = tc.columns.length
        · rw [processLine_mutate env tc st line s hdel2 hmut hdec hlen]
          exact mutateColumns_rel_preserve env tc.columns tc.mutations
            tc.sortedCols t c v val _ st hg hl
        · rw [processLine_badCols env tc st line s hdel2 hmut hdec hlen]
          exact ⟨hg, hl⟩

theorem processChain_rel_preserve (env : Env) (t c v val : Str) :
    ∀ (items : List (TableCfg × Bytes)) (st : ProcState), GoodRT st.rel →
      rtLookup st.rel t c v = some val →
      GoodRT (processChain env items st).rel ∧
      rtLookup (processChain env items st).rel t c v = some val := by
  intro items
  induction items with
  | nil => intro st hg hl; exact ⟨hg, hl⟩
  | cons p rest ih =>
    intro st hg hl
    rcases p with ⟨tc, line⟩
    rw [processChain]
    obtain ⟨hg2, hl2⟩ := processLine_rel_preserve env tc st line t c v val hg hl
    exact ih _ hg2 hl2

/-- C3 (amended): once a replacement is stored under a relation triple
(table name, to-column, fk value), it persists unchanged for the rest of
the dump — the empty tracker satisfies the key-freshness invariant, every
store preserves it, a store is immediately visible to lookup, and
`process_line` as well as any whole processing chain (any tables, any COPY
payloads) keeps every existing mapping intact — and any later row whose
spec's relation lookup reaches that triple first adopts the stored value
at the mutated column instead of generating a fresh one. -/
theorem claim_C3 (t c v val : Str) :
    GoodRT rtEmpty ∧
    (∀ rt nv, GoodRT rt → GoodRT (rtStore rt t c v nv)) ∧
    (∀ rt nv, rtLookup (rtStore rt t c v nv) t c v = some nv) ∧
    (∀ env tc st line, GoodRT st.rel → rtLookup st.rel t c v = some val →
      GoodRT (processLine env tc st line).2.rel ∧
      rtLookup (processLine env tc st line).2.rel t c v = some val) ∧
    (∀ env items st, GoodRT st.rel → rtLookup st.rel t c v = some val →
      rtLookup (processChain env items st).rel t c v = some val) ∧
    (∀ st cols vals r rest fidx,
      colIndex cols r.from_column_name = some fidx →
      r.table_name = t → r.to_column_name = c → vals.getD fidx [] = v →
      rtLookup st.rel t c v = some val →
      relLookup st cols vals (r :: rest) = some val) ∧
    (∀ env cols colName colIdx curVal spec rest vals obf st,
      checkConditions env cols spec.conditions vals = true →
      specRelLookup st spec cols vals = some val →
      applySpecs env cols colName colIdx curVal (spec :: rest) vals obf st =
        (vals.set colIdx val, (colName, val) :: obf, st)) := by
  refine ⟨goodRT_empty, ?_, ?_, ?_, ?_, ?_, ?_⟩
  · intro rt nv hg
    exact goodRT_store rt t c v nv hg
  · intro rt nv
    exact rtLookup_store_self rt t c v nv
  · intro env tc st line hg hl
    exact processLine_rel_preserve env tc st line t c v val hg hl
  · intro env items st hg hl
    exact (processChain_rel_preserve env t c v val items st hg hl).2
  · intro st cols vals r rest fidx hci ht hc2 hv hl
    subst ht
    subst hc2
    subst hv
    simp only [relLookup, hci]
    rw [hl]
  · intro env cols colName colIdx curVal spec rest vals obf st h1 h2
    simp [applySpecs, h1, h2]

/-- Relation targeting table `y`, column `q`, keyed by column `a`. -/
def relQ : Relation where
  table_name := str ("y")
  column_name := str ("m")
  from_column_name := str ("a")
  to_column_name := str ("q")

/-- Relation targeting table `x`, column `p`, keyed by column `a`. -/
def relP : Relation where
  table_name := str ("x")
  column_name := str ("m")
  from_column_name := str ("a")
  to_column_name := str ("p")

/-- Spec of the first row: generate `null`, record under `relQ`. -/
def specR0 : MutationSpec := ⟨str ("null"), [], [], [relQ]⟩

/-- Spec of the second row: two relations, `relQ` first. -/
def specRA : MutationSpec := ⟨str ("empty_string"), [], [], [relQ, relP]⟩

/-- Spec of the third row: `relP` alone. -/
def specRB : MutationSpec := ⟨str ("empty_string"), [], [], [relP]⟩

/-- Table configuration of the first row. -/
def tcR0 : TableCfg where
  currentTable := str ("t0")
  columns := [str ("a"), str ("b")]
  mutations := [(str ("b"), [specR0])]
  sortedCols := [str ("a"), str ("b")]
  isDelete := false

/-- Table configuration of the second row. -/
def tcRA : TableCfg where
  currentTable := str ("t1")
  columns := [str ("a"), str ("b")]
  mutations := [(str ("b"), [specRA])]
  sortedCols := [str ("a"), str ("b")]
  isDelete := false

/-- Table configuration of the third row. -/
def tcRB : TableCfg where
  currentTable := str ("t2")
  columns := [str ("a"), str ("b")]
  mutations := [(str ("b"), [specRB])]
  sortedCols := [str ("a"), str ("b")]
  isDelete := false

/-- The shared input row `va<TAB>z`. -/
def lineVA : Bytes := [118, 97, 9, 122]

/-- C3, counterexample to the claim as stated: the relation `relP`
(table `x`, to-column `p`) applies to both the second and the third row
with the same from-value `va`, yet the second row adopts the backslash-N
value found via its first relation `relQ` (storing nothing under `relP`)
while the third row generates the empty string afresh, so the two
replacements at the mutated column differ. -/
theorem claim_C3_counterexample :
    relP ∈ specRA.relations ∧ relP ∈ specRB.relations ∧
    (processLine env0 tcRA
      (processLine env0 tcR0 initProcState lineVA).2 lineVA).1 =
      some [118, 97, 9, 92, 78] ∧
    (processLine env0 tcRB
      (processLine env0 tcRA
        (processLine env0 tcR0 initProcState lineVA).2 lineVA).2 lineVA).1 =
      some [118, 97, 9] ∧
    ([118, 97, 9, 92, 78] : Bytes) ≠ [118, 97, 9] := by
  refine ⟨by decide, by decide, by decide, by decide, by decide⟩

/-- C3 witness: a value stored for a relation triple is still returned by
lookup after a further processed row. -/
theorem claim_C3_witness :
    rtLookup ((processChain env0 [(tcR0, lineVA)]
      { gen := g0, rel := rtStore rtEmpty (str ("x")) (str ("p"))
          (str ("va")) (str ("N")) }).rel)
      (str ("x")) (str ("p")) (str ("va")) = some (str ("N")) := by
  have h := claim_C3 (str ("x")) (str ("p")) (str ("va")) (str ("N"))
  exact h.2.2.2.2.1 env0 [(tcR0, lineVA)]
    { gen := g0, rel := rtStore rtEmpty (str ("x")) (str ("p"))
        (str ("va")) (str ("N")) }
    (h.2.1 rtEmpty (str ("N")) h.1)
    (h.2.2.1 rtEmpty (str ("N")))
/-- Newline-terminated concatenation of encoded lines: the byte stream
whose `BufRead::lines` view is exactly the given line list. -/
def joinNl (lines : List Str) : Bytes :=
  (lines.map (fun l => encodeUtf8 l ++ [10])).flatten

theorem splitSep_append_sep (d : Nat) (l rest : List Nat) (hd : d ∉ l) :
    splitSep d (l ++ d :: rest) = l :: splitSep d rest := by
  induction l with
  | nil =>
    rcases hs : splitSep d rest with _ | ⟨p, ps⟩
    · exact absurd hs (splitSep_ne_nil d rest)
    · simp [splitSep, hs]
  | cons c l2 ih =>
    have hcd : c ≠ d := by
      intro h
      exact hd (by rw [h]; exact List.mem_cons_self d l2)
    have hd2 : d ∉ l2 := fun h => hd (List.mem_cons_of_mem _ h)
    simp only [List.cons_append, splitSep, List.append_eq, ih hd2]
    rw [if_neg hcd]

theorem splitSep_joinNl (lines : List Str)
    (hnl : ∀ l ∈ lines, 10 ∉ encodeUtf8 l) :
    splitSep 10 (joinNl lines) = lines.map encodeUtf8 ++ [[]] := by
  induction lines with
  | nil => rfl
  | cons l ls ih =>
    have hj : joinNl (l :: ls) = encodeUtf8 l ++ 10 :: joinNl ls := by
      simp [joinNl]
    rw [hj, splitSep_append_sep 10 _ _ (hnl l (List.mem_cons_self l ls)),
      ih (fun l2 h2 => hnl l2 (List.mem_cons_of_mem _ h2))]
    rfl

theorem mapM_decode_encode (lines : List Str)
    (hv : ∀ l ∈ lines, ∀ c ∈ l, ValidScalar c) :
    (lines.map encodeUtf8).mapM decodeUtf8 = some lines := by
  induction lines with
  | nil => rfl
  | cons l ls ih =>
    rw [List.map_cons, List.mapM_cons]
    rw [encodeUtf8_decode l (hv l (List.mem_cons_self l ls))]
    rw [ih (fun l2 h2 => hv l2 (List.mem_cons_of_mem _ h2))]
    rfl

theorem toLines_joinNl (lines : List Str)
    (hv : ∀ l ∈ lines, ∀ c ∈ l, ValidScalar c)
    (hnl : ∀ l ∈ lines, 10 ∉ encodeUtf8 l)
    (hcr : ∀ l ∈ lines, (encodeUtf8 l).getLast? ≠ some 13) :
    toLines (joinNl lines) = some lines := by
  have hmapcr : ∀ (ls : List Str),
      (∀ l ∈ ls, (encodeUtf8 l).getLast? ≠ some 13) →
      (ls.map encodeUtf8).map stripCR = ls.map encodeUtf8 := by
    intro ls
    induction ls with
    | nil => intro _; rfl
    | cons l ls2 ih =>
      intro h
      simp only [List.map_cons]
      rw [ih (fun l2 h2 => h l2 (List.mem_cons_of_mem _ h2))]
      rw [show stripCR (encodeUtf8 l) = encodeUtf8 l from by
        rw [stripCR, if_neg (h l (List.mem_cons_self l ls2))]]
  simp only [toLines]
  rw [splitSep_joinNl lines hnl]
  rw [List.dropLast_concat, List.getLast?_concat]
  simp only [Option.getD_some, List.isEmpty_nil, if_true, List.append_nil]
  rw [hmapcr lines hcr]
  exact mapM_decode_encode lines hv

theorem plainRun_passthrough (env : Env) :
    ∀ (ls : List Str) (st : PlainState),
      (∀ l ∈ ls, anonCommentStart l = false ∧ env.commentColumnRe l = none ∧
        env.commentTableRe l = none ∧
        ∀ tn cs, env.copyRe l = some (tn, cs) →
          shouldDeleteTable env ([] : List (Str × TableMutationSpec)) tn =
            false) →
      st.commentBuf = none → st.dm.mm = [] → st.dm.tms = [] →
      st.tc.mutations = [] → st.tc.isDelete = false →
      plainRunGo env st ls = joinNl ls := by
  intro ls
  induction ls with
  | nil => intro st _ _ _ _ _ _; rfl
  | cons l ls2 ih =>
    intro st hall hcb hmm2 htms hmutn hdel
    obtain ⟨ha, hcre, htre, hdelc⟩ := hall l (List.mem_cons_self l ls2)
    have hrest := fun l2 h2 => hall l2 (List.mem_cons_of_mem _ h2)
    by_cases hd : st.isData
    · by_cases hdot : l = str ("\\.")
      · have h2 : (plainStep env st l).2 = encodeUtf8 l ++ [10] := by
          simp [plainStep, hd, hdot, hdel]
        have hicb : (plainStep env st l).1.commentBuf = none := by
          simp [plainStep, hd, hdot, hcb]
        have himm : (plainStep env st l).1.dm.mm = [] := by
          simp [plainStep, hd, hdot, hmm2]
        have hitms : (plainStep env st l).1.dm.tms = [] := by
          simp [plainStep, hd, hdot, htms]
        have himut : (plainStep env st l).1.tc.mutations = [] := by
          simp [plainStep, hd, hdot, emptyTableCfg]
        have hidel : (plainStep env st l).1.tc.isDelete = false := by
          simp [plainStep, hd, hdot, emptyTableCfg]
        simp only [plainRunGo]
        rw [h2, ih _ hrest hicb himm hitms himut hidel]
        rfl
      · have hpl : processLine env st.tc st.ps (encodeUtf8 l) =
            (some (encodeUtf8 l), st.ps) :=
          processLine_noMut env st.tc st.ps (encodeUtf8 l) hdel
            (by rw [hmutn]; rfl)
        have h2 : (plainStep env st l).2 = encodeUtf8 l ++ [10] := by
          simp [plainStep, hd, hdot, hpl]
        have hicb : (plainStep env st l).1.commentBuf = none := by
          simp [plainStep, hd, hdot, hpl, hcb]
        have himm : (plainStep env st l).1.dm.mm = [] := by
          simp [plainStep, hd, hdot, hpl, hmm2]
        have hitms : (plainStep env st l).1.dm.tms = [] := by
          simp [plainStep, hd, hdot, hpl, htms]
        have himut : (plainStep env st l).1.tc.mutations = [] := by
          simp [plainStep, hd, hdot, hpl, hmutn]
        have hidel : (plainStep env st l).1.tc.isDelete = false := by
          simp [plainStep, hd, hdot, hpl, hdel]
        simp only [plainRunGo]
        rw [h2, ih _ hrest hicb himm hitms himut hidel]
        rfl
    · have hpc : parseComment env st.dm l = (st.dm, false) := by
        simp [parseComment, hcre, htre]
      rcases hre : env.copyRe l with _ | ⟨tn, cs⟩
      · have h2 : (plainStep env st l).2 = encodeUtf8 l ++ [10] := by
          simp [plainStep, hd, hcb, ha, hpc, setupTable, hre]
        have hicb : (plainStep env st l).1.commentBuf = none := by
          simp [plainStep, hd, hcb, ha, hpc, setupTable, hre]
        have himm : (plainStep env st l).1.dm.mm = [] := by
          simp [plainStep, hd, hcb, ha, hpc, setupTable, hre, hmm2]
        have hitms : (plainStep env st l).1.dm.tms = [] := by
          simp [plainStep, hd, hcb, ha, hpc, setupTable, hre, htms]
        have himut : (plainStep env st l).1.tc.mutations = [] := by
          simp [plainStep, hd, hcb, ha, hpc, setupTable, hre, hmutn]
        have hidel : (plainStep env st l).1.tc.isDelete = false := by
          simp [plainStep, hd, hcb, ha, hpc, setupTable, hre, hdel]
        simp only [plainRunGo]
        rw [h2, ih _ hrest hicb himm hitms himut hidel]
        rfl
      · have hdel2 : shouldDeleteTable env st.dm.tms tn = false := by
          rw [htms]
          exact hdelc tn cs hre
        have h2 : (plainStep env st l).2 = encodeUtf8 l ++ [10] := by
          simp [plainStep, hd, hcb, ha, hpc, setupTable, hre, hdel2]
        have hicb : (plainStep env st l).1.commentBuf = none := by
          simp [plainStep, hd, hcb, ha, hpc, setupTable, hre, hcb]
        have himm : (plainStep env st l).1.dm.mm = [] := by
          simp [plainStep, hd, hcb, ha, hpc, setupTable, hre, hmm2]
        have hitms : (plainStep env st l).1.dm.tms = [] := by
          simp [plainStep, hd, hcb, ha, hpc, setupTable, hre, htms]
        have himut : (plainStep env st l).1.tc.mutations = [] := by
          simp [plainStep, hd, hcb, ha, hpc, setupTable, hre, hmm2, lookupA]
        have hidel : (plainStep env st l).1.tc.isDelete = false := by
          simp [plainStep, hd, hcb, ha, hpc, setupTable, hre, hdel2]
        simp only [plainRunGo]
        rw [h2, ih _ hrest hicb himm hitms himut hidel]
        rfl

/-- C5 (amended): the plain driver is a byte-faithful passthrough on every
newline-terminated input whose lines are valid text (each byte line is
UTF-8 of its codepoints, contains no newline byte and does not end in a
carriage return), match no column or table directive-comment pattern, do
not open a multi-line `anon:` comment, and whose COPY statements target no
delete-marked table; the unrestricted byte-for-byte claim fails on inputs
without a trailing newline (the driver appends one). -/
theorem claim_C5 (env : Env) (lines : List Str)
    (hv : ∀ l ∈ lines, ∀ c ∈ l, ValidScalar c)
    (hnl : ∀ l ∈ lines, 10 ∉ encodeUtf8 l)
    (hcr : ∀ l ∈ lines, (encodeUtf8 l).getLast? ≠ some 13)
    (hpat : ∀ l ∈ lines, anonCommentStart l = false ∧
      env.commentColumnRe l = none ∧ env.commentTableRe l = none ∧
      ∀ tn cs, env.copyRe l = some (tn, cs) →
        shouldDeleteTable env ([] : List (Str × TableMutationSpec)) tn =
          false) :
    plainHandler env (joinNl lines) = Except.ok (joinNl lines) := by
  simp only [plainHandler, toLines_joinNl lines hv hnl hcr]
  rw [plainRun_passthrough env lines initPlainState hpat rfl rfl rfl rfl rfl]

/-- C5, counterexample to the claim as stated: the one-byte input `a`
(no trailing newline, no directive comments, no tables at all) comes out
as `a` followed by a newline, so the output does not equal the input
byte-for-byte. -/
theorem claim_C5_counterexample :
    plainHandler env0 [97] = Except.ok [97, 10] ∧
      ([97, 10] : Bytes) ≠ [97] := by
  refine ⟨by decide, by decide⟩

/-- C5 witness: a directive-free newline-terminated SQL line passes
through unchanged. -/
theorem claim_C5_witness :
    plainHandler env0 (joinNl [str ("SELECT 1;")]) =
      Except.ok (joinNl [str ("SELECT 1;")]) := by
  refine claim_C5 env0 [str ("SELECT 1;")] (by decide) (by decide)
    (by decide) ?_
  intro l hl
  have hl2 := List.mem_singleton.mp hl
  subst hl2
  refine ⟨by decide, rfl, rfl, ?_⟩
  intro tn cs h
  exact Option.noConfusion h

end PgStage
